import Mathlib

/-!
# Verification of the optimization-engine core

Shallow embedding of the core of the `optimization-engine` Rust crate:
the constraint projection operators (`src/constraints/*`), the FBS
(forward-backward splitting) engine and optimizer (`src/core/fbs/*`) and
the PANOC cache (`src/core/panoc/panoc_cache.rs`).

Modelling conventions:

* Machine floats (`T: OptFloat` in the source, instantiated at `f64`/`f32`)
  are modelled by an arbitrary `LinearOrderedField` — exact arithmetic with
  no rounding, no `NaN` and no infinities.  Definitions that need a square
  root are stated over `ℝ` with `Real.sqrt`; everything else is kept
  polymorphic (and computable), so that witnesses can be evaluated over `ℚ`.
* Rust slices become `List`s.  In-place mutation becomes a function from the
  old to the new list.  The pattern `x.iter_mut().zip(c.iter())`, which
  mutates only the first `min |x| |c|` entries of `x` and leaves the tail
  untouched, is captured by `zipMutate`.
* A Rust `panic!`/failed `assert!` is modelled by the `panicked` constructor
  of `RustResult`; a `Result<A, SolverError>` becomes `Except SolverError A`.
* Wall-clock time is external input: the optimizer is parameterized by the
  sequence of values `now.elapsed()` returns at each loop-guard check.
-/

set_option maxRecDepth 100000

namespace OptEn

variable {T : Type} [LinearOrderedField T]

/-! ## Matrix helpers (`matrix_operations`, collaborator module)

Modelled from the spec: the module `matrix_operations` is declared in
`lib.rs` but its source file is not part of the core sources; §6 of the
spec fixes its byte-exact semantics: `norm1(x) = Σ|x_i|`,
`norm2(x) = √Σx_i²`, `norm_inf_diff(a,b) = max|a_i−b_i|`, `inner_product`,
`norm2_squared`, `norm2_squared_diff(x,c) = Σ(x_i−c_i)²`, `is_finite`
(all components finite). -/

/-- Modelled from the spec: `matrix_operations::inner_product`. -/
def inner_product (a b : List T) : T :=
  (List.zipWith (· * ·) a b).sum

/-- Modelled from the spec: `matrix_operations::norm2_squared`, `Σ x_i²`. -/
def norm2_squared (x : List T) : T :=
  (x.map fun t => t * t).sum

/-- Modelled from the spec: `matrix_operations::norm2_squared_diff`,
`Σ (x_i − c_i)²`. -/
def norm2_squared_diff (x c : List T) : T :=
  (List.zipWith (fun a b => (a - b) * (a - b)) x c).sum

/-- Modelled from the spec: `matrix_operations::norm1`, `Σ |x_i|`. -/
def norm1 (x : List T) : T :=
  (x.map fun t => |t|).sum

/-- Modelled from the spec: `matrix_operations::norm_inf_diff`,
`max_i |a_i − b_i|` (0 on empty input). -/
def norm_inf_diff (a b : List T) : T :=
  (List.zipWith (fun s t => |s - t|) a b).foldl max 0

/-- Modelled from the spec: `matrix_operations::norm2 = √ norm2_squared`. -/
noncomputable def norm2 (x : List ℝ) : ℝ :=
  Real.sqrt (norm2_squared x)

/-- Modelled from the spec: `matrix_operations::is_finite` — all components
are finite.  In the exact-field model every value is finite, so this is
constantly `true`. -/
def is_finite (_x : List T) : Bool := true

/-- In-place mutation of `x` driven by `x.iter_mut().zip(c.iter())`:
the first `min |x| |c|` entries of `x` are replaced by `f xᵢ cᵢ` and the
tail of `x` is left untouched. -/
def zipMutate (f : T → T → T) (x c : List T) : List T :=
  List.zipWith f x c ++ x.drop c.length

/-! ## Simplex projection (`src/constraints/simplex.rs`)

Condat's fast projection onto `Δ_α = {x ≥ 0 : Σ x_i = α}`.  The Rust
`Simplex::project` keeps a candidate list `v`, a spill list `v_tilde` and a
running scalar `rho`; we thread exactly that state. -/

/-- One iteration of "step 2" of `Simplex::project`: stream one element
`xn` of `x[1..]` through the state `(v, v_tilde, rho)`. -/
def simplexStep2 (a : T) (st : List T × List T × T) (xn : T) :
    List T × List T × T :=
  let v := st.1
  let vt := st.2.1
  let rho := st.2.2
  if rho < xn then
    let rho1 := rho + (xn - rho) / ((v.length + 1 : ℕ) : T)
    if xn - a < rho1 then (v ++ [xn], vt, rho1)
    else ([xn], vt ++ v, xn - a)
  else st

/-- One iteration of "step 3" of `Simplex::project`: sweep one element of
the spill list `v_tilde` through `(v, rho)`. -/
def simplexStep3 (st : List T × T) (w : T) : List T × T :=
  let v := st.1
  let rho := st.2
  if rho < w then
    let v' := v ++ [w]
    (v', rho + (w - rho) / ((v'.length : ℕ) : T))
  else st

/-- One pass of the cleanup loop ("step 4") of `Simplex::project`: scan `v`
left to right; drop every element `w ≤ rho`, decrementing the running
length `cl` and updating `rho ← rho + (rho − w)/cl` at each drop.  The Rust
code records drops in a `hit_list` and removes them after the scan, which
is the same as not keeping them during the scan. -/
def simplexPass : List T → ℤ → T → List T × ℤ × T
  | [], cl, rho => ([], cl, rho)
  | w :: rest, cl, rho =>
    if w ≤ rho then
      let cl' := cl - 1
      simplexPass rest cl' (rho + (rho - w) / (cl' : T))
    else
      let r := simplexPass rest cl rho
      (w :: r.1, r.2.1, r.2.2)

/-- The cleanup `while` loop of "step 4", with an explicit fuel bound on the
number of passes.  Each pass either removes at least one element of `v` or
leaves `v` (and `rho`) unchanged, in which case the stored length equals
`v_size_old` at the following comparison and the loop stops; hence
`|v| + 2` passes always suffice, and `simplexProject` supplies that much
fuel. -/
def simplexStep4 : ℕ → List T → T → ℤ → List T × T
  | 0, v, rho, _ => (v, rho)
  | fuel + 1, v, rho, vso =>
    let p := simplexPass v (v.length : ℤ) rho
    if p.2.1 = vso then (p.1, p.2.2)
    else simplexStep4 fuel p.1 p.2.2 p.2.1

/-- `Simplex::project` (Condat's algorithm): steps 1–4 compute the final
pivot `rho`; step 6 maps `x_i ↦ max 0 (x_i − rho)`.  The source indexes
`x[0]` and hence panics on an empty slice; here the empty list is returned
unchanged. -/
def simplexProject (a : T) (x : List T) : List T :=
  match x with
  | [] => []
  | x0 :: rest =>
    let st2 := rest.foldl (simplexStep2 a) ([x0], [], x0 - a)
    let st3 := st2.2.1.foldl simplexStep3 (st2.1, st2.2.2)
    let st4 := simplexStep4 (st3.1.length + 2) st3.1 st3.2 (-1)
    x.map fun xi => max 0 (xi - st4.2)

/-! ## Core types (`lib.rs`, `core/mod.rs`, `core/solver_status.rs`)

`SolverError` and `ExitStatus` are the source enums.  `RustResult`
distinguishes a value-returning call from one that aborts the process via
`panic!`/failed `assert!`. -/

/-- `SolverError` from `lib.rs`: `Cost` (user callback failed) or
`NotFiniteComputation` (NaN/∞ detected after the main loop). -/
inductive SolverError : Type
  | Cost : SolverError
  | NotFiniteComputation : SolverError
deriving DecidableEq

/-- `ExitStatus` from `core/mod.rs`. -/
inductive ExitStatus : Type
  | Converged : ExitStatus
  | NotConvergedIterations : ExitStatus
  | NotConvergedOutOfTime : ExitStatus
deriving DecidableEq

/-- Outcome of running a Rust function: either it returns a value or it
aborts the process (a `panic!` or failed assertion). -/
inductive RustResult (α : Type) : Type
  | panicked : RustResult α
  | ret : α → RustResult α
deriving DecidableEq

deriving instance DecidableEq for Except

/-- Scalar finiteness check (`T::is_finite` on a float).  Constantly `true`
in the exact-field model, which has no NaN or infinities. -/
def scalar_is_finite (_t : T) : Bool := true

/-- `SolverStatus` (module `core/solver_status.rs`, declared in
`core/mod.rs`).  Modelled from the spec: reports the exit status, the
iteration count, the final fixed-point-residual norm and the final cost.
The elapsed wall-clock time the source also stores is real time and is not
modelled. -/
structure SolverStatus (T : Type) where
  exit_status : ExitStatus
  num_iter : ℕ
  norm_fpr : T
  cost_value : T
deriving DecidableEq

/-! ## FBS (`core/fbs/fbs_cache.rs`, `fbs_engine.rs`, `fbs_optimizer.rs`) -/

/-- `Problem` (`core/problem.rs`): the constraint set's in-place `project`,
the gradient callback and the cost callback.  The Rust callbacks fill a
caller-provided buffer and return `Result<(), SolverError>`; functionally,
they either produce the output value or an error. -/
structure FBSProblem (T : Type) where
  constraintsProject : List T → List T
  gradf : List T → Except SolverError (List T)
  cost : List T → Except SolverError T

/-- `FBSCache` (`core/fbs/fbs_cache.rs`). -/
structure FBSCache (T : Type) where
  work_gradient_u : List T
  work_u_previous : List T
  gamma : T
  tolerance : T
  norm_fpr : T
deriving DecidableEq

/-- `FBSEngine::gradient_step`: evaluates the gradient callback into
`work_gradient_u` and takes `u -= gamma * gradient`.  The source wraps the
callback in `assert_eq!(Ok(()), ...)`, so a callback failure is a panic,
not an error return. -/
def FBSEngine.gradient_step (p : FBSProblem T) (c : FBSCache T) (u : List T) :
    RustResult (List T × FBSCache T) :=
  match p.gradf u with
  | .error _ => .panicked
  | .ok g =>
    .ret (zipMutate (fun ui wi => ui - c.gamma * wi) u g,
      { c with work_gradient_u := g })

/-- `FBSEngine::step`: cache the previous iterate, take a gradient step,
project, set `norm_fpr = ‖u − u_prev‖_∞` and return `Ok(norm_fpr > tolerance)`. -/
def FBSEngine.step (p : FBSProblem T) (c : FBSCache T) (u : List T) :
    RustResult (Except SolverError (Bool × List T × FBSCache T)) :=
  let c1 := { c with work_u_previous := u }
  match FBSEngine.gradient_step p c1 u with
  | .panicked => .panicked
  | .ret (u1, c2) =>
    let u2 := p.constraintsProject u1
    let nf := norm_inf_diff u2 c2.work_u_previous
    let c3 := { c2 with norm_fpr := nf }
    .ret (.ok (decide (c3.tolerance < nf), u2, c3))

/-- `FBSEngine::init` is a no-op returning `Ok(())`. -/
def FBSEngine.init (_p : FBSProblem T) (_u : List T) : Except SolverError Unit :=
  .ok ()

/-- `MAX_ITER` from `fbs_optimizer.rs`. -/
def MAX_ITER : ℕ := 100

/-- The configuration fields of `FBSOptimizer` (the engine reference is
passed explicitly to `solve`). -/
structure FBSOptimizer (T : Type) where
  max_iter : ℕ
  max_duration : Option T

/-- `FBSOptimizer::new`: `max_iter = MAX_ITER`, no duration bound. -/
def FBSOptimizer.new : FBSOptimizer T :=
  { max_iter := MAX_ITER, max_duration := none }

/-- `FBSOptimizer::with_max_iter`. -/
def FBSOptimizer.with_max_iter (o : FBSOptimizer T) (mi : ℕ) : FBSOptimizer T :=
  { o with max_iter := mi }

/-- `FBSOptimizer::with_max_duration`. -/
def FBSOptimizer.with_max_duration (o : FBSOptimizer T) (d : T) : FBSOptimizer T :=
  { o with max_duration := some d }

/-- The un-timed main loop of `FBSOptimizer::solve`:
`while step_flag && num_iter < max_iter { num_iter += 1; step_flag = step(u)? }`,
encoded structurally on `remaining = max_iter − num_iter`.  The last
component counts calls to `step` (instrumentation used to state the
iteration-budget property). -/
def fbsLoop (p : FBSProblem T) :
    ℕ → ℕ → Bool → List T → FBSCache T → ℕ →
    RustResult (Except SolverError (ℕ × Bool × List T × FBSCache T × ℕ))
  | 0, num_iter, flag, u, c, calls => .ret (.ok (num_iter, flag, u, c, calls))
  | remaining + 1, num_iter, flag, u, c, calls =>
    if flag then
      match FBSEngine.step p c u with
      | .panicked => .panicked
      | .ret (.error e) => .ret (.error e)
      | .ret (.ok (flag', u', c')) =>
        fbsLoop p remaining (num_iter + 1) flag' u' c' (calls + 1)
    else .ret (.ok (num_iter, flag, u, c, calls))

/-- The time-capped main loop of `FBSOptimizer::solve`:
`while step_flag && num_iter < max_iter && dur <= now.elapsed() { ... }`.
`elapsed k` is the wall-clock reading when the guard is evaluated with
`num_iter = k` (time is external input to the model). -/
def fbsLoopTimed (p : FBSProblem T) (dur : T) (elapsed : ℕ → T) :
    ℕ → ℕ → Bool → List T → FBSCache T → ℕ →
    RustResult (Except SolverError (ℕ × Bool × List T × FBSCache T × ℕ))
  | 0, num_iter, flag, u, c, calls => .ret (.ok (num_iter, flag, u, c, calls))
  | remaining + 1, num_iter, flag, u, c, calls =>
    if flag then
      if dur ≤ elapsed num_iter then
        match FBSEngine.step p c u with
        | .panicked => .panicked
        | .ret (.error e) => .ret (.error e)
        | .ret (.ok (flag', u', c')) =>
          fbsLoopTimed p dur elapsed remaining (num_iter + 1) flag' u' c' (calls + 1)
      else .ret (.ok (num_iter, flag, u, c, calls))
    else .ret (.ok (num_iter, flag, u, c, calls))

/-- `FBSOptimizer::solve`: init (no-op), one initial `step`, the main loop
(time-capped when `max_duration` is set), final cost evaluation, finiteness
check, and status construction.  Returns the status, the final iterate, the
final cache and the total number of `step` calls. -/
def FBSOptimizer.solve (opt : FBSOptimizer T) (p : FBSProblem T) (elapsed : ℕ → T)
    (u : List T) (c : FBSCache T) :
    RustResult (Except SolverError (SolverStatus T × List T × FBSCache T × ℕ)) :=
  match FBSEngine.step p c u with
  | .panicked => .panicked
  | .ret (.error e) => .ret (.error e)
  | .ret (.ok (flag0, u0, c0)) =>
    let loopRes :=
      match opt.max_duration with
      | some dur => fbsLoopTimed p dur elapsed opt.max_iter 0 flag0 u0 c0 1
      | none => fbsLoop p opt.max_iter 0 flag0 u0 c0 1
    match loopRes with
    | .panicked => .panicked
    | .ret (.error e) => .ret (.error e)
    | .ret (.ok (num_iter, _flagF, uF, cF, calls)) =>
      match p.cost uF with
      | .error e => .ret (.error e)
      | .ok cost_value =>
        if !(is_finite uF) || !(scalar_is_finite cost_value) then
          .ret (.error .NotFiniteComputation)
        else
          .ret (.ok
            ({ exit_status :=
                if num_iter < opt.max_iter then .Converged else .NotConvergedIterations,
               num_iter := num_iter,
               norm_fpr := cF.norm_fpr,
               cost_value := cost_value },
             uF, cF, calls))

/-! ## PANOC cache (`core/panoc/panoc_cache.rs`) -/

/-- Modelled from the spec: the external `lbfgs` collaborator (§6).  Only
the contract `PANOCCache` consumes is modelled: a buffer of curvature
pairs that `reset()` empties, plus the cautious-update configuration
constants set by the `with_*` builders. -/
structure Lbfgs (T : Type) where
  buffer : List (List T × List T)
  cbfgs_alpha : T
  cbfgs_epsilon : T
  sy_epsilon : T
deriving DecidableEq

/-- Modelled from the spec: `lbfgs::Lbfgs::reset` empties the buffer. -/
def Lbfgs.reset (l : Lbfgs T) : Lbfgs T := { l with buffer := [] }

/-- Modelled from the spec: cautious-update configuration builder. -/
def Lbfgs.with_cbfgs_alpha (l : Lbfgs T) (a : T) : Lbfgs T := { l with cbfgs_alpha := a }

/-- Modelled from the spec: cautious-update configuration builder. -/
def Lbfgs.with_cbfgs_epsilon (l : Lbfgs T) (e : T) : Lbfgs T := { l with cbfgs_epsilon := e }

/-- Modelled from the spec: curvature-acceptance threshold builder. -/
def Lbfgs.with_sy_epsilon (l : Lbfgs T) (e : T) : Lbfgs T := { l with sy_epsilon := e }

/-- `PANOCCache` (`core/panoc/panoc_cache.rs`), with the fields of the
source struct. -/
structure PANOCCache (T : Type) where
  lbfgs : Lbfgs T
  gradient_u : List T
  gradient_u_previous : Option (List T)
  u_half_step : List T
  gradient_step : List T
  direction_lbfgs : List T
  u_plus : List T
  rhs_ls : T
  lhs_ls : T
  gamma_fpr : List T
  gamma : T
  tolerance : T
  norm_gamma_fpr : T
  tau : T
  lipschitz_constant : T
  sigma : T
  cost_value : T
  iteration : ℕ
  akkt_tolerance : Option T
deriving DecidableEq

/-- `PANOCCache::fpr_exit_condition`: true iff `norm_gamma_fpr` is below
the tolerance.  (The Rust method returns `bool`; it is embedded as the
corresponding proposition.) -/
def PANOCCache.fpr_exit_condition (c : PANOCCache T) : Prop :=
  c.norm_gamma_fpr < c.tolerance

/-- `PANOCCache::akkt_residual`:
`‖gamma_fpr + gamma·(gradient_u − gradient_u_previous)‖` (0 when no
previous-gradient buffer is allocated). -/
noncomputable def PANOCCache.akkt_residual (c : PANOCCache ℝ) : ℝ :=
  match c.gradient_u_previous with
  | none => 0
  | some df_previous =>
    Real.sqrt
      ((List.zipWith (fun p dfp_i => (p.1 + c.gamma * (p.2 - dfp_i)) ^ 2)
        (List.zipWith (fun gamma_fpr_i df_i => (gamma_fpr_i, df_i)) c.gamma_fpr c.gradient_u)
        df_previous).sum)

/-- `PANOCCache::akkt_exit_condition`: trivially satisfied unless an AKKT
tolerance is set, in which case the AKKT residual must be below it. -/
noncomputable def PANOCCache.akkt_exit_condition (c : PANOCCache ℝ) : Prop :=
  match c.akkt_tolerance with
  | some akkt_tol => c.akkt_residual < akkt_tol
  | none => True

/-- `PANOCCache::exit_condition`: conjunction of the FPR and AKKT tests. -/
noncomputable def PANOCCache.exit_condition (c : PANOCCache ℝ) : Prop :=
  c.fpr_exit_condition ∧ c.akkt_exit_condition

/-- `PANOCCache::reset`: empty the LBFGS buffer, set `tau := 1`, zero
`lhs_ls`, `rhs_ls`, `lipschitz_constant`, `sigma`, `cost_value`,
`iteration` and `gamma`.  All other fields (in particular `tolerance`,
`norm_gamma_fpr`, `akkt_tolerance` and the vector buffers) are untouched. -/
def PANOCCache.reset (c : PANOCCache T) : PANOCCache T :=
  { c with
    lbfgs := c.lbfgs.reset,
    lhs_ls := 0,
    rhs_ls := 0,
    tau := 1,
    lipschitz_constant := 0,
    sigma := 0,
    cost_value := 0,
    iteration := 0,
    gamma := 0 }

/-! ## Constraint sets (`src/constraints/*`)

The sets needing a square root (`Ball2`, `Sphere2`, `SecondOrderCone`) are
embedded over `ℝ` with `Real.sqrt`; the rest stay polymorphic. -/

/-- `signum` of a float: 1 for positive values and `+0.0`, −1 for negative
values.  (The exact-field model cannot distinguish `-0.0`, which Rust maps
to −1; `signum` is only ever applied to values that matter when nonzero.) -/
def signum (t : T) : T := if t < 0 then -1 else 1

/-- `Zero::project`: everything maps to the origin. -/
def zeroProject (x : List T) : List T := x.map fun _ => 0

/-- `NoConstraints::project`: identity. -/
def noConstraintsProject (x : List T) : List T := x

/-- `Rectangle::project`: clamp from below against `xmin` (when present),
then from above against `xmax` (when present). -/
def rectangleProject (xmin xmax : Option (List T)) (x : List T) : List T :=
  let x1 := match xmin with
    | none => x
    | some lo => zipMutate (fun xi lo_i => if xi < lo_i then lo_i else xi) x lo
  match xmax with
  | none => x1
  | some hi => zipMutate (fun xi hi_i => if hi_i < xi then hi_i else xi) x1 hi

/-- `BallInf::project`: per coordinate, clip onto `[cᵢ − r, cᵢ + r]` using
`signum`. -/
def ballInfProject (center : Option (List T)) (radius : T) (x : List T) : List T :=
  match center with
  | some c =>
    zipMutate (fun xi ci =>
      if radius < |xi - ci| then ci + signum (xi - ci) * radius else xi) x c
  | none =>
    x.map fun xi => if radius < |xi| then signum xi * radius else xi

/-- `Ball1::project_on_ball1_centered_at_origin`: when `‖x‖₁ > r`, project
`|x|` onto the simplex of level `r` and restore the signs. -/
def ball1ProjectOrigin (radius : T) (x : List T) : List T :=
  if radius < norm1 x then
    let u := x.map fun xi => |xi|
    let u2 := simplexProject radius u
    zipMutate (fun xi ui => signum xi * ui) x u2
  else x

/-- `Ball1::project`: shift by the center (when present), project at the
origin, shift back. -/
def ball1Project (center : Option (List T)) (radius : T) (x : List T) : List T :=
  match center with
  | some c =>
    let x1 := zipMutate (fun xi ci => xi - ci) x c
    let x2 := ball1ProjectOrigin radius x1
    zipMutate (fun xi ci => xi + ci) x2 c
  | none => ball1ProjectOrigin radius x

/-- `Hyperplane::project`: `x := x − ((⟨c,x⟩ − b)/‖c‖²)·c`, with `‖c‖²`
memoized at construction (`norm2_squared` of the normal vector). -/
def hyperplaneProject (normal_vector : List T) (offset : T) (x : List T) : List T :=
  let ip := inner_product x normal_vector
  let factor := (ip - offset) / norm2_squared normal_vector
  zipMutate (fun xi ci => xi - factor * ci) x normal_vector

/-- `Ball2::project`: rescale the displacement from the center to radius
`r` when the point lies outside the ball. -/
noncomputable def ball2Project (center : Option (List ℝ)) (radius : ℝ)
    (x : List ℝ) : List ℝ :=
  match center with
  | some c =>
    let norm_difference := Real.sqrt (norm2_squared_diff x c)
    if radius < norm_difference then
      zipMutate (fun xi ci => ci + radius * (xi - ci) / norm_difference) x c
    else x
  | none =>
    let norm_x := norm2 x
    if radius < norm_x then
      let norm_over_radius := norm_x / radius
      x.map fun xi => xi / norm_over_radius
    else x

/-- `Sphere2::project`: if the point is within `ε = 10⁻¹²` of the center,
snap deterministically (copy the center, add `r` to the first coordinate —
in the centerless branch the source only adds `r` to `x[0]`); otherwise
rescale the displacement to radius `r`.  The source indexes `x[0]`
(panicking on an empty slice); the empty list is returned unchanged. -/
noncomputable def sphere2Project (center : Option (List ℝ)) (radius : ℝ)
    (x : List ℝ) : List ℝ :=
  let epsilon : ℝ := 1/10^12
  match center with
  | some c =>
    let norm_difference := Real.sqrt (norm2_squared_diff x c)
    if norm_difference ≤ epsilon then
      match c with
      | c0 :: ct => (c0 + radius) :: ct
      | [] => []
    else
      zipMutate (fun xi ci => ci + radius * (xi - ci) / norm_difference) x c
  | none =>
    let norm_x := norm2 x
    if norm_x ≤ epsilon then
      match x with
      | x0 :: xt => (x0 + radius) :: xt
      | [] => []
    else
      let norm_over_radius := radius / norm_x
      x.map fun xi => xi * norm_over_radius

/-- `SecondOrderCone::project` (Bauschke): for `x = (z, t)`, zero out when
`α‖z‖ ≤ −t`; rescale onto the cone boundary when `‖z‖ > αt`; identity
otherwise.  The source asserts `x.len() ≥ 2`. -/
noncomputable def socProject (alpha : ℝ) (x : List ℝ) : List ℝ :=
  let z := x.dropLast
  let r := x.getLastD 0
  let norm_z := norm2 z
  if alpha * norm_z ≤ -r then
    x.map fun _ => 0
  else if alpha * r < norm_z then
    let beta := (alpha * norm_z + r) / (alpha ^ 2 + 1)
    (z.map fun v => v * alpha * beta / norm_z) ++ [beta]
  else x

/-- The tagged union of the nine constraint-set variants (§3 of the spec),
with the parameters each `new` takes. -/
inductive ConstraintSet : Type
  | noConstraints : ConstraintSet
  | zero : ConstraintSet
  | rectangle (xmin xmax : Option (List ℝ)) : ConstraintSet
  | ball2 (center : Option (List ℝ)) (radius : ℝ) : ConstraintSet
  | ballInf (center : Option (List ℝ)) (radius : ℝ) : ConstraintSet
  | ball1 (center : Option (List ℝ)) (radius : ℝ) : ConstraintSet
  | sphere2 (center : Option (List ℝ)) (radius : ℝ) : ConstraintSet
  | simplex (alpha : ℝ) : ConstraintSet
  | soc (alpha : ℝ) : ConstraintSet
  | hyperplane (normal_vector : List ℝ) (offset : ℝ) : ConstraintSet

/-- `Constraint::project`, dispatching on the variant. -/
noncomputable def ConstraintSet.project : ConstraintSet → List ℝ → List ℝ
  | .noConstraints, x => noConstraintsProject x
  | .zero, x => zeroProject x
  | .rectangle lo hi, x => rectangleProject lo hi x
  | .ball2 c r, x => ball2Project c r x
  | .ballInf c r, x => ballInfProject c r x
  | .ball1 c r, x => ball1Project c r x
  | .sphere2 c r, x => sphere2Project c r x
  | .simplex a, x => simplexProject a x
  | .soc a, x => socProject a x
  | .hyperplane c b, x => hyperplaneProject c b x

/-- `Constraint::is_convex`: every variant is convex except `Sphere2`. -/
def ConstraintSet.is_convex : ConstraintSet → Bool
  | .sphere2 _ _ => false
  | _ => true

/-- Well-formedness of a constraint set together with an input of valid
dimension: the constructor assertions (positive radii/levels, at least one
rectangle bound, `x.len() ≥ 2` for the cone, a nonempty slice where `x[0]`
is indexed) plus dimensional agreement between the input and the set's
parameter vectors.  For `Hyperplane` a nonzero normal is required: with
`‖c‖² = 0` the source divides by zero (NaN). -/
def ConstraintSet.valid : ConstraintSet → List ℝ → Prop
  | .noConstraints, _ => True
  | .zero, _ => True
  | .rectangle lo hi, x =>
      (lo.isSome ∨ hi.isSome) ∧ (∀ l ∈ lo, l.length = x.length) ∧
      (∀ h ∈ hi, h.length = x.length)
  | .ball2 c r, x => 0 < r ∧ ∀ cc ∈ c, cc.length = x.length
  | .ballInf c r, x => 0 < r ∧ ∀ cc ∈ c, cc.length = x.length
  | .ball1 c r, x => 0 < r ∧ ∀ cc ∈ c, cc.length = x.length
  | .sphere2 c r, x => 0 < r ∧ x ≠ [] ∧ ∀ cc ∈ c, cc.length = x.length
  | .simplex a, x => 0 < a ∧ x ≠ []
  | .soc a, x => 0 < a ∧ 2 ≤ x.length
  | .hyperplane c _, x => c.length = x.length ∧ norm2_squared c ≠ 0

/-! ## Theorems -/

/-! ### Invariants of Condat's algorithm

Throughout steps 1–4 the algorithm maintains `rho * |v| = Σv − a` (over the
candidate list `v`), `rho` never decreases, and every value it discards was
`≤ rho` at the moment of discard (hence `≤` the final `rho`).  The final
pass of step 4 removes nothing, so every element of the final `v` exceeds
the final `rho`.  Together these give `Σ_i max 0 (x_i − rho) = a`. -/

/-- One step-2 iteration preserves the pivot invariant, never decreases
`rho`, and discards only values that are `≤` the new `rho`. -/
theorem simplexStep2_spec (a : T) (st : List T × List T × T) (xn : T)
    (hINV : st.2.2 * (st.1.length : T) = st.1.sum - a) :
    (simplexStep2 a st xn).2.2 * (((simplexStep2 a st xn).1.length : ℕ) : T)
        = (simplexStep2 a st xn).1.sum - a ∧
    st.2.2 ≤ (simplexStep2 a st xn).2.2 ∧
    ∃ D : Multiset T,
      ((simplexStep2 a st xn).1 : Multiset T) + ((simplexStep2 a st xn).2.1 : Multiset T) + D
        = (st.1 : Multiset T) + (st.2.1 : Multiset T) + {xn} ∧
      ∀ w ∈ D, w ≤ (simplexStep2 a st xn).2.2 := by
  obtain ⟨v, vt, rho⟩ := st
  simp only at hINV
  simp only [simplexStep2]
  have hpos : (0:T) < ((v.length + 1 : ℕ) : T) := by positivity
  have hcancel : (rho + (xn - rho) / ((v.length + 1 : ℕ) : T)) * ((v.length + 1 : ℕ) : T)
      = rho * ((v.length + 1 : ℕ) : T) + (xn - rho) := by
    field_simp
  split_ifs with h1 h2
  · -- push branch
    refine ⟨?_, ?_, 0, ?_, by simp⟩
    · simp only [List.length_append, List.sum_append, List.length_singleton,
        List.sum_singleton]
      push_cast at hcancel ⊢
      nlinarith [hcancel, hINV]
    · have : 0 < (xn - rho) / ((v.length + 1 : ℕ) : T) := div_pos (by linarith) hpos
      simp only []
      linarith
    · simp only [add_zero]
      have h6 : ((v ++ [xn] : List T) : Multiset T)
          = (v : Multiset T) + (([xn] : List T) : Multiset T) := Multiset.coe_add v [xn]
      simp only [h6, Multiset.coe_singleton]
      abel
  · -- reset branch
    have hup : rho < rho + (xn - rho) / ((v.length + 1 : ℕ) : T) := by
      have : 0 < (xn - rho) / ((v.length + 1 : ℕ) : T) := div_pos (by linarith) hpos
      linarith
    push_neg at h2
    refine ⟨by simp, by simp only []; linarith, 0, ?_, by simp⟩
    simp only [Multiset.coe_singleton, add_zero]
    have h3 : ((vt ++ v : List T) : Multiset T) = (vt : Multiset T) + (v : Multiset T) := by
      simp
    rw [h3]
    have h4 : ({xn} : Multiset T) = ([xn] : List T) := by simp
    rw [h4]
    abel
  · -- skip branch: xn ≤ rho is discarded
    push_neg at h1
    refine ⟨hINV, le_refl _, {xn}, rfl, by simpa using h1⟩

/-- Streaming a whole list through step 2 (the `for_each` over `x[1..]`)
preserves the pivot invariant; `rho` never decreases and all discarded
values are `≤` the final `rho`. -/
theorem simplexStep2_fold_spec (a : T) (l : List T) :
    ∀ st : List T × List T × T,
    st.2.2 * (st.1.length : T) = st.1.sum - a →
    (l.foldl (simplexStep2 a) st).2.2 * ((l.foldl (simplexStep2 a) st).1.length : T)
        = (l.foldl (simplexStep2 a) st).1.sum - a ∧
    st.2.2 ≤ (l.foldl (simplexStep2 a) st).2.2 ∧
    ∃ D : Multiset T,
      ((l.foldl (simplexStep2 a) st).1 : Multiset T)
          + ((l.foldl (simplexStep2 a) st).2.1 : Multiset T) + D
        = (st.1 : Multiset T) + (st.2.1 : Multiset T) + (l : Multiset T) ∧
      ∀ w ∈ D, w ≤ (l.foldl (simplexStep2 a) st).2.2 := by
  induction l with
  | nil => intro st h; exact ⟨h, le_refl _, 0, by simp, by simp⟩
  | cons xn l ih =>
    intro st h
    obtain ⟨h1, h2, D1, hD1, hD1b⟩ := simplexStep2_spec a st xn h
    obtain ⟨h1', h2', D2, hD2, hD2b⟩ := ih (simplexStep2 a st xn) h1
    refine ⟨h1', le_trans h2 h2', D2 + D1, ?_, ?_⟩
    · rw [show ((xn :: l : List T) : Multiset T)
          = ({xn} : Multiset T) + (l : Multiset T) from by simp]
      calc ((l.foldl (simplexStep2 a) (simplexStep2 a st xn)).1 : Multiset T)
            + ((l.foldl (simplexStep2 a) (simplexStep2 a st xn)).2.1 : Multiset T)
            + (D2 + D1)
          = (((l.foldl (simplexStep2 a) (simplexStep2 a st xn)).1 : Multiset T)
            + ((l.foldl (simplexStep2 a) (simplexStep2 a st xn)).2.1 : Multiset T)
            + D2) + D1 := by abel
        _ = (((simplexStep2 a st xn).1 : Multiset T)
            + ((simplexStep2 a st xn).2.1 : Multiset T) + (l : Multiset T)) + D1 := by
              rw [hD2]
        _ = (((simplexStep2 a st xn).1 : Multiset T)
            + ((simplexStep2 a st xn).2.1 : Multiset T) + D1) + (l : Multiset T) := by abel
        _ = ((st.1 : Multiset T) + (st.2.1 : Multiset T) + {xn}) + (l : Multiset T) := by
              rw [hD1]
        _ = (st.1 : Multiset T) + (st.2.1 : Multiset T)
            + (({xn} : Multiset T) + (l : Multiset T)) := by abel
    · intro w hw
      rcases Multiset.mem_add.mp hw with hw | hw
      · exact hD2b w hw
      · exact le_trans (hD1b w hw) h2'

/-- One step-3 iteration (sweeping one element of the spill list) preserves
the pivot invariant, never decreases `rho`, and discards only values `≤`
the new `rho`. -/
theorem simplexStep3_spec (st : List T × T) (w : T)
    {a : T} (hINV : st.2 * (st.1.length : T) = st.1.sum - a) :
    (simplexStep3 st w).2 * ((simplexStep3 st w).1.length : T)
        = (simplexStep3 st w).1.sum - a ∧
    st.2 ≤ (simplexStep3 st w).2 ∧
    ∃ D : Multiset T,
      ((simplexStep3 st w).1 : Multiset T) + D = (st.1 : Multiset T) + {w} ∧
      ∀ u ∈ D, u ≤ (simplexStep3 st w).2 := by
  obtain ⟨v, rho⟩ := st
  simp only at hINV
  simp only [simplexStep3, List.length_append, List.length_singleton]
  have hpos : (0:T) < ((v.length + 1 : ℕ) : T) := by positivity
  split_ifs with h1
  · have hcancel : (rho + (w - rho) / ((v.length + 1 : ℕ) : T))
        * ((v.length + 1 : ℕ) : T)
        = rho * ((v.length + 1 : ℕ) : T) + (w - rho) := by
      field_simp
    refine ⟨?_, ?_, 0, ?_, by simp⟩
    · simp only [List.length_append, List.sum_append, List.length_singleton,
        List.sum_singleton]
      push_cast at hcancel ⊢
      nlinarith [hcancel, hINV]
    · have : 0 < (w - rho) / ((v.length + 1 : ℕ) : T) := div_pos (by linarith) hpos
      simp only []
      linarith
    · simp only [add_zero]
      rw [← Multiset.coe_add, Multiset.coe_singleton]
  · push_neg at h1
    exact ⟨hINV, le_refl _, {w}, rfl, by simpa using h1⟩

/-- Sweeping the whole spill list through step 3. -/
theorem simplexStep3_fold_spec (a : T) (l : List T) :
    ∀ st : List T × T,
    st.2 * (st.1.length : T) = st.1.sum - a →
    (l.foldl simplexStep3 st).2 * ((l.foldl simplexStep3 st).1.length : T)
        = (l.foldl simplexStep3 st).1.sum - a ∧
    st.2 ≤ (l.foldl simplexStep3 st).2 ∧
    ∃ D : Multiset T,
      ((l.foldl simplexStep3 st).1 : Multiset T) + D
        = (st.1 : Multiset T) + (l : Multiset T) ∧
      ∀ u ∈ D, u ≤ (l.foldl simplexStep3 st).2 := by
  induction l with
  | nil => intro st h; exact ⟨h, le_refl _, 0, by simp, by simp⟩
  | cons w l ih =>
    intro st h
    obtain ⟨h1, h2, D1, hD1, hD1b⟩ := simplexStep3_spec st w (a := a) h
    obtain ⟨h1', h2', D2, hD2, hD2b⟩ := ih (simplexStep3 st w) h1
    refine ⟨h1', le_trans h2 h2', D2 + D1, ?_, ?_⟩
    · rw [show ((w :: l : List T) : Multiset T)
          = ({w} : Multiset T) + (l : Multiset T) from by simp]
      calc ((l.foldl simplexStep3 (simplexStep3 st w)).1 : Multiset T) + (D2 + D1)
          = (((l.foldl simplexStep3 (simplexStep3 st w)).1 : Multiset T) + D2) + D1 := by
            abel
        _ = (((simplexStep3 st w).1 : Multiset T) + (l : Multiset T)) + D1 := by rw [hD2]
        _ = (((simplexStep3 st w).1 : Multiset T) + D1) + (l : Multiset T) := by abel
        _ = ((st.1 : Multiset T) + {w}) + (l : Multiset T) := by rw [hD1]
        _ = (st.1 : Multiset T) + (({w} : Multiset T) + (l : Multiset T)) := by abel
    · intro u hu
      rcases Multiset.mem_add.mp hu with hu | hu
      · exact hD2b u hu
      · exact le_trans (hD1b u hu) h2'

/-- A cleanup pass keeps a sublist of its input. -/
theorem simplexPass_sublist (v : List T) (cl : ℤ) (rho : T) :
    (simplexPass v cl rho).1.Sublist v := by
  induction v generalizing cl rho with
  | nil => simp [simplexPass]
  | cons w rest ih =>
    simp only [simplexPass]
    split_ifs with h
    · exact List.Sublist.cons w (ih _ _)
    · exact List.Sublist.cons₂ w (ih _ _)

/-- If a cleanup pass removes nothing then it leaves `rho` unchanged and
every element of the list is strictly above `rho`. -/
theorem simplexPass_nodrop (v : List T) (cl : ℤ) (rho : T)
    (h : (simplexPass v cl rho).1 = v) :
    (simplexPass v cl rho).2.2 = rho ∧ ∀ w ∈ v, rho < w := by
  induction v generalizing cl rho with
  | nil => simp [simplexPass]
  | cons w rest ih =>
    simp only [simplexPass] at h ⊢
    split_ifs at h ⊢ with hle
    · exfalso
      have hsub := simplexPass_sublist rest (cl - 1)
        (rho + (rho - w) / ((cl - 1 : ℤ) : T))
      have hlen := hsub.length_le
      rw [h] at hlen
      simp at hlen
    · have htail : (simplexPass rest cl rho).1 = rest := by
        have := congrArg List.tail h
        simpa using this
      obtain ⟨h1, h2⟩ := ih cl rho htail
      push_neg at hle
      refine ⟨h1, ?_⟩
      intro u hu
      rcases List.mem_cons.mp hu with rfl | hu
      · exact hle
      · exact h2 u hu

/-- A cleanup pass decrements the running length counter once per removed
element: on exit the counter satisfies `cl_out = cl − |v| + |kept|`. -/
theorem simplexPass_cl (v : List T) (cl : ℤ) (rho : T) :
    (simplexPass v cl rho).2.1 = cl - v.length + (simplexPass v cl rho).1.length := by
  induction v generalizing cl rho with
  | nil => simp [simplexPass]
  | cons w rest ih =>
    simp only [simplexPass]
    split_ifs with h
    · rw [ih]
      push_cast [List.length_cons]
      ring
    · simp only [List.length_cons]
      rw [ih]
      push_cast [List.length_cons]
      ring

/-- Main invariant of one cleanup pass.  The state entering the pass
consists of `k` already-kept elements of total sum `K` plus the unscanned
suffix `v`; the counter equals `k + |v|`.  The pass preserves the pivot
invariant, never decreases `rho` (for this, positivity of the simplex
level `a` ensures the counter never reaches zero at a removal), and
removes only elements that are `≤` the final `rho`. -/
theorem simplexPass_spec (a : T) (ha : 0 < a) (v : List T) :
    ∀ (rho K : T) (k : ℕ),
    rho * ((k : T) + (v.length : T)) = K + v.sum - a →
    (k = 0 → K = 0) →
    (simplexPass v ((k + v.length : ℕ) : ℤ) rho).2.2
        * ((k : T) + ((simplexPass v ((k + v.length : ℕ) : ℤ) rho).1.length : T))
        = K + (simplexPass v ((k + v.length : ℕ) : ℤ) rho).1.sum - a ∧
    rho ≤ (simplexPass v ((k + v.length : ℕ) : ℤ) rho).2.2 ∧
    ∃ D : Multiset T,
      ((simplexPass v ((k + v.length : ℕ) : ℤ) rho).1 : Multiset T) + D = (v : Multiset T) ∧
      ∀ w ∈ D, w ≤ (simplexPass v ((k + v.length : ℕ) : ℤ) rho).2.2 := by
  induction v with
  | nil =>
    intro rho K k hINV _
    simp only [simplexPass, List.length_nil, List.sum_nil] at hINV ⊢
    refine ⟨by simpa using hINV, le_refl _, 0, by simp, by simp⟩
  | cons w rest ih =>
    intro rho K k hINV hk
    simp only [simplexPass]
    split_ifs with hle
    · -- drop w
      have hclT : (((k + (w :: rest).length : ℕ) : ℤ) - 1 : ℤ) = ((k + rest.length : ℕ) : ℤ) := by
        push_cast [List.length_cons]
        ring
      have hcl0 : 0 < (k : T) + (rest.length : T) := by
        rcases Nat.eq_zero_or_pos (k + rest.length) with h0 | h0
        · exfalso
          obtain ⟨hk0, hr0⟩ := Nat.add_eq_zero.mp h0
          have hK := hk hk0
          have hrest : rest = [] := List.length_eq_zero.mp hr0
          subst hrest hK hk0
          simp only [List.length_cons, List.length_nil, List.sum_cons, List.sum_nil] at hINV
          push_cast at hINV
          -- hINV : rho * (0 + (0 + 1)) = 0 + (w + 0) - a
          have : rho = w - a := by linarith
          linarith
        · have : (0:T) < ((k + rest.length : ℕ) : T) := by
            exact_mod_cast Nat.cast_pos.mpr h0
          push_cast at this
          linarith
      have hclne : (k : T) + (rest.length : T) ≠ 0 := ne_of_gt hcl0
      -- the updated rho
      set rho' := rho + (rho - w) / ((((k + (w :: rest).length : ℕ) : ℤ) - 1 : ℤ) : T) with hrho'
      have hcast : ((((k + (w :: rest).length : ℕ) : ℤ) - 1 : ℤ) : T)
          = (k : T) + (rest.length : T) := by
        push_cast [List.length_cons]
        ring
      have hmono : rho ≤ rho' := by
        rw [hrho', hcast]
        have : 0 ≤ (rho - w) / ((k : T) + (rest.length : T)) :=
          div_nonneg (by linarith) (le_of_lt hcl0)
        linarith
      have hINV' : rho' * ((k : T) + (rest.length : T)) = K + rest.sum - a := by
        rw [hrho', hcast]
        have hc : (rho + (rho - w) / ((k : T) + (rest.length : T)))
            * ((k : T) + (rest.length : T))
            = rho * ((k : T) + (rest.length : T)) + (rho - w) := by
          field_simp
        rw [hc]
        simp only [List.length_cons, List.sum_cons] at hINV
        push_cast at hINV
        linarith
      rw [hclT]
      obtain ⟨h1, h2, D, hD, hDb⟩ := ih rho' K k hINV' hk
      refine ⟨h1, le_trans hmono h2, D + {w}, ?_, ?_⟩
      · rw [← Multiset.cons_coe, ← Multiset.singleton_add]
        rw [← hD]
        abel
      · intro u hu
        rcases Multiset.mem_add.mp hu with hu | hu
        · exact hDb u hu
        · have : u = w := by simpa using hu
          subst this
          exact le_trans hle (le_trans hmono h2)
    · -- keep w
      push_neg at hle
      have hcl : ((k + (w :: rest).length : ℕ) : ℤ) = (((k + 1) + rest.length : ℕ) : ℤ) := by
        simp only [List.length_cons]
        push_cast
        ring
      have hINV' : rho * (((k + 1 : ℕ) : T) + (rest.length : T)) = (K + w) + rest.sum - a := by
        simp only [List.length_cons, List.sum_cons] at hINV
        push_cast at hINV ⊢
        linarith
      rw [hcl]
      obtain ⟨h1, h2, D, hD, hDb⟩ := ih rho (K + w) (k + 1) hINV' (by omega)
      refine ⟨?_, h2, D, ?_, hDb⟩
      · simp only [List.length_cons, List.sum_cons]
        push_cast at h1 ⊢
        linarith
      · rw [← Multiset.cons_coe, ← Multiset.singleton_add, ← Multiset.cons_coe,
          ← Multiset.singleton_add, ← hD]
        abel

/-- Specification of the cleanup `while` loop.  With the fuel supplied by
`simplexProject` the loop runs to stabilization: on exit the pivot
invariant holds, `rho` has not decreased, only elements `≤` the final
`rho` were removed, and every surviving element is strictly above the
final `rho`. -/
theorem simplexStep4_spec (a : T) (ha : 0 < a) :
    ∀ (fuel : ℕ) (v : List T) (rho : T) (vso : ℤ),
    (vso = (v.length : ℤ) ∨ vso < 0) →
    (if vso = (v.length : ℤ) then v.length + 1 else v.length + 2) ≤ fuel →
    rho * (v.length : T) = v.sum - a →
    (simplexStep4 fuel v rho vso).2 * ((simplexStep4 fuel v rho vso).1.length : T)
        = (simplexStep4 fuel v rho vso).1.sum - a ∧
    rho ≤ (simplexStep4 fuel v rho vso).2 ∧
    (∃ D : Multiset T,
      ((simplexStep4 fuel v rho vso).1 : Multiset T) + D = (v : Multiset T) ∧
      ∀ w ∈ D, w ≤ (simplexStep4 fuel v rho vso).2) ∧
    ∀ w ∈ (simplexStep4 fuel v rho vso).1, (simplexStep4 fuel v rho vso).2 < w := by
  intro fuel
  induction fuel with
  | zero =>
    intro v rho vso _ hfuel _
    exfalso
    split_ifs at hfuel <;> omega
  | succ fuel ih =>
    intro v rho vso hvso hfuel hINV
    have hINV0 : rho * (((0:ℕ) : T) + (v.length : T)) = 0 + v.sum - a := by
      push_cast
      linarith
    have hps := simplexPass_spec a ha v rho 0 0 hINV0 (fun _ => rfl)
    rw [show ((0 + v.length : ℕ) : ℤ) = (v.length : ℤ) from by push_cast; ring] at hps
    obtain ⟨h1, h2, D, hD, hDb⟩ := hps
    have hcl := simplexPass_cl v (v.length : ℤ) rho
    simp only [sub_self, zero_add] at hcl
    have hsub := simplexPass_sublist v (v.length : ℤ) rho
    simp only [simplexStep4]
    split_ifs with hstop
    · -- the loop stops: the last pass removed nothing
      have hlen : (simplexPass v (v.length : ℤ) rho).1.length = v.length := by
        rcases hvso with hvso | hvso
        · have : ((simplexPass v (v.length : ℤ) rho).1.length : ℤ) = (v.length : ℤ) := by
            rw [← hcl, hstop, hvso]
          exact_mod_cast this
        · exfalso
          rw [hcl] at hstop
          omega
      have heq : (simplexPass v (v.length : ℤ) rho).1 = v := hsub.eq_of_length hlen
      obtain ⟨hrho, hall⟩ := simplexPass_nodrop v (v.length : ℤ) rho heq
      refine ⟨by simpa using h1, h2, ⟨D, hD, hDb⟩, ?_⟩
      intro w hw
      rw [heq] at hw
      rw [hrho]
      exact hall w hw
    · -- the loop continues with the shrunken list
      have hlen_le : (simplexPass v (v.length : ℤ) rho).1.length ≤ v.length :=
        hsub.length_le
      have hfuel' : (if (simplexPass v (v.length : ℤ) rho).2.1
          = ((simplexPass v (v.length : ℤ) rho).1.length : ℤ)
          then (simplexPass v (v.length : ℤ) rho).1.length + 1
          else (simplexPass v (v.length : ℤ) rho).1.length + 2) ≤ fuel := by
        rw [if_pos hcl]
        rcases lt_or_eq_of_le hlen_le with hlt | heqlen
        · split_ifs at hfuel <;> omega
        · have heq : (simplexPass v (v.length : ℤ) rho).1 = v := hsub.eq_of_length heqlen
          have : vso ≠ (v.length : ℤ) := by
            intro hcontra
            rw [hcl, heqlen] at hstop
            exact hstop hcontra.symm
          rw [if_neg this] at hfuel
          omega
      have hINV1 : (simplexPass v (v.length : ℤ) rho).2.2
          * (((simplexPass v (v.length : ℤ) rho).1.length : ℕ) : T)
          = (simplexPass v (v.length : ℤ) rho).1.sum - a := by
        push_cast at h1 ⊢
        linarith
      obtain ⟨g1, g2, ⟨D2, hD2, hD2b⟩, g4⟩ :=
        ih (simplexPass v (v.length : ℤ) rho).1 (simplexPass v (v.length : ℤ) rho).2.2
          (simplexPass v (v.length : ℤ) rho).2.1 (Or.inl hcl) hfuel' hINV1
      refine ⟨g1, le_trans h2 g2, ⟨D2 + D, ?_, ?_⟩, g4⟩
      · calc ((simplexStep4 fuel (simplexPass v (v.length : ℤ) rho).1
              (simplexPass v (v.length : ℤ) rho).2.2
              (simplexPass v (v.length : ℤ) rho).2.1).1 : Multiset T) + (D2 + D)
            = (((simplexStep4 fuel (simplexPass v (v.length : ℤ) rho).1
              (simplexPass v (v.length : ℤ) rho).2.2
              (simplexPass v (v.length : ℤ) rho).2.1).1 : Multiset T) + D2) + D := by abel
          _ = ((simplexPass v (v.length : ℤ) rho).1 : Multiset T) + D := by rw [hD2]
          _ = (v : Multiset T) := hD
      · intro w hw
        rcases Multiset.mem_add.mp hw with hw | hw
        · exact hD2b w hw
        · exact le_trans (hDb w hw) g2

/-- Characterization of `simplexProject` on a nonempty input: the output is
`x_i ↦ max 0 (x_i − ρ)` for a pivot `ρ` such that the survivor list `V`
satisfies `ρ·|V| = ΣV − a`, every survivor exceeds `ρ`, and the remaining
entries of `x` (a multiset `D`) are all `≤ ρ`. -/
theorem simplexProject_pivot (a : T) (ha : 0 < a) (x0 : T) (rest : List T) :
    ∃ (V : List T) (rho : T) (D : Multiset T),
      simplexProject a (x0 :: rest) = (x0 :: rest).map (fun t => max 0 (t - rho)) ∧
      rho * (V.length : T) = V.sum - a ∧
      (∀ w ∈ V, rho < w) ∧
      (V : Multiset T) + D = ((x0 :: rest : List T) : Multiset T) ∧
      ∀ w ∈ D, w ≤ rho := by
  have hbase : ((x0 - a) * ((([x0] : List T).length : ℕ) : T)
      = ([x0] : List T).sum - a) := by simp
  obtain ⟨h21, h22, D1, hD1, hD1b⟩ :=
    simplexStep2_fold_spec a rest ([x0], ([], x0 - a)) hbase
  set st2 := rest.foldl (simplexStep2 a) ([x0], ([], x0 - a)) with hst2
  obtain ⟨h31, h32, D2, hD2, hD2b⟩ :=
    simplexStep3_fold_spec a st2.2.1 (st2.1, st2.2.2) h21
  set st3 := st2.2.1.foldl simplexStep3 (st2.1, st2.2.2) with hst3
  have hvso : ((-1 : ℤ) = (st3.1.length : ℤ) ∨ (-1 : ℤ) < 0) := Or.inr (by norm_num)
  have hfuel : (if (-1 : ℤ) = (st3.1.length : ℤ) then st3.1.length + 1
      else st3.1.length + 2) ≤ st3.1.length + 2 := by
    rw [if_neg (by omega)]
  obtain ⟨h41, h42, ⟨D3, hD3, hD3b⟩, h44⟩ :=
    simplexStep4_spec a ha (st3.1.length + 2) st3.1 st3.2 (-1) hvso hfuel h31
  set st4 := simplexStep4 (st3.1.length + 2) st3.1 st3.2 (-1) with hst4
  refine ⟨st4.1, st4.2, D3 + D2 + D1, ?_, h41, h44, ?_, ?_⟩
  · simp only [simplexProject]
  · calc (st4.1 : Multiset T) + (D3 + D2 + D1)
        = ((st4.1 : Multiset T) + D3) + D2 + D1 := by abel
      _ = (st3.1 : Multiset T) + D2 + D1 := by rw [hD3]
      _ = ((st2.1 : Multiset T) + (st2.2.1 : Multiset T)) + D1 := by rw [hD2]
      _ = (([x0] : List T) : Multiset T) + (([] : List T) : Multiset T)
          + (rest : Multiset T) := hD1
      _ = ((x0 :: rest : List T) : Multiset T) := by
          rw [← Multiset.cons_coe, ← Multiset.singleton_add]
          simp
  · intro w hw
    rcases Multiset.mem_add.mp hw with hw' | hw'
    · rcases Multiset.mem_add.mp hw' with hw'' | hw''
      · exact hD3b w hw''
      · exact le_trans (hD2b w hw'') h42
    · exact le_trans (hD1b w hw') (le_trans h32 h42)

theorem sum_map_sub_const (l : List T) (c : T) :
    (l.map fun w => w - c).sum = l.sum - l.length * c := by
  induction l with
  | nil => simp
  | cons w rest ih =>
    simp only [List.map_cons, List.sum_cons, List.length_cons, ih]
    push_cast
    ring

/-- On a nonempty input, `simplexProject` returns a vector with entries
`max 0 (x_i − ρ)` summing exactly to the level `a`. -/
theorem simplexProject_sum (a : T) (ha : 0 < a) (x : List T) (hx : x ≠ []) :
    (simplexProject a x).sum = a := by
  match x, hx with
  | x0 :: rest, _ =>
    obtain ⟨V, rho, D, hproj, hINV, hV, hM, hD⟩ := simplexProject_pivot a ha x0 rest
    rw [hproj]
    have hsum : ((x0 :: rest : List T).map fun t => max 0 (t - rho)).sum
        = ((((x0 :: rest : List T) : Multiset T)).map fun t => max 0 (t - rho)).sum := by
      simp
    rw [hsum, ← hM, Multiset.map_add, Multiset.sum_add]
    have hVpart : ((V : Multiset T).map fun t => max 0 (t - rho)).sum = a := by
      have hcongr : ((V : Multiset T).map fun t => max 0 (t - rho))
          = ((V : Multiset T).map fun t => t - rho) := by
        apply Multiset.map_congr rfl
        intro w hw
        have : rho < w := hV w (by simpa using hw)
        exact max_eq_right (by linarith)
      rw [hcongr]
      have : ((V : Multiset T).map fun t => t - rho).sum = (V.map fun t => t - rho).sum := by
        simp
      rw [this, sum_map_sub_const]
      linarith
    have hDpart : (D.map fun t => max 0 (t - rho)).sum = 0 := by
      have hcongr : (D.map fun t => max 0 (t - rho)) = D.map fun _ => (0:T) := by
        apply Multiset.map_congr rfl
        intro w hw
        exact max_eq_left (by have := hD w hw; linarith)
      rw [hcongr]
      simp
    rw [hVpart, hDpart, add_zero]

/-- Entrywise nonnegativity of the simplex projection output. -/
theorem simplexProject_nonneg (a : T) (x : List T) :
    ∀ yi ∈ simplexProject a x, 0 ≤ yi := by
  intro yi hyi
  match x with
  | [] => simp [simplexProject] at hyi
  | x0 :: rest =>
    simp only [simplexProject, List.mem_map] at hyi
    obtain ⟨t, _, rfl⟩ := hyi
    exact le_max_left 0 _

/-- The simplex projection preserves the length of its input. -/
theorem simplexProject_length (a : T) (x : List T) :
    (simplexProject a x).length = x.length := by
  match x with
  | [] => rfl
  | x0 :: rest => simp [simplexProject]

/-- Pointwise bound behind the variational inequality: for `y = max 0 (t−ρ)`
and any `z ≥ 0`, `(y − t)² − 2ρ(z − y) ≤ (z − t)²`. -/
theorem max_shift_sq_bound (rho t z : T) (hz : 0 ≤ z) :
    (max 0 (t - rho) - t) * (max 0 (t - rho) - t)
        - 2 * rho * (z - max 0 (t - rho)) ≤ (z - t) * (z - t) := by
  rcases le_or_lt t rho with h | h
  · rw [max_eq_left (by linarith)]
    nlinarith
  · rw [max_eq_right (by linarith)]
    nlinarith [mul_self_nonneg (z - t + rho)]

/-- Summed variational inequality for the pivot map `t ↦ max 0 (t − ρ)`. -/
theorem sum_sq_bound (rho : T) :
    ∀ (x z : List T), z.length = x.length → (∀ zi ∈ z, 0 ≤ zi) →
    norm2_squared_diff (x.map fun t => max 0 (t - rho)) x
        - 2 * rho * (z.sum - (x.map fun t => max 0 (t - rho)).sum)
      ≤ norm2_squared_diff z x := by
  intro x
  induction x with
  | nil =>
    intro z hlen _
    rw [List.length_eq_zero.mp hlen]
    simp [norm2_squared_diff]
  | cons t x' ih =>
    intro z hlen hz
    match z, hlen with
    | z0 :: z', hlen =>
      have hlen' : z'.length = x'.length := by simpa using hlen
      have hz' : ∀ zi ∈ z', 0 ≤ zi := fun zi hzi => hz zi (List.mem_cons_of_mem _ hzi)
      have hz0 : 0 ≤ z0 := hz z0 (List.mem_cons_self _ _)
      have hhead := max_shift_sq_bound rho t z0 hz0
      have htail := ih z' hlen' hz'
      simp only [norm2_squared_diff, List.map_cons, List.zipWith_cons_cons,
        List.sum_cons] at htail ⊢
      linarith

theorem norm2_squared_diff_nonneg (x c : List T) : 0 ≤ norm2_squared_diff x c := by
  induction x generalizing c with
  | nil => simp [norm2_squared_diff]
  | cons t x' ih =>
    match c with
    | [] => simp [norm2_squared_diff]
    | c0 :: c' =>
      have := ih c'
      simp only [norm2_squared_diff, List.zipWith_cons_cons, List.sum_cons] at this ⊢
      nlinarith [mul_self_nonneg (t - c0)]

theorem norm2_squared_diff_self (x : List T) : norm2_squared_diff x x = 0 := by
  induction x with
  | nil => simp [norm2_squared_diff]
  | cons t x' ih =>
    simp only [norm2_squared_diff, List.zipWith_cons_cons, List.sum_cons] at ih ⊢
    simp [ih]

theorem norm2_squared_diff_eq_zero (x c : List T) (hlen : x.length = c.length)
    (h : norm2_squared_diff x c = 0) : x = c := by
  induction x generalizing c with
  | nil =>
    match c with
    | [] => rfl
  | cons t x' ih =>
    match c, hlen with
    | c0 :: c', hlen =>
      have hlen' : x'.length = c'.length := by simpa using hlen
      simp only [norm2_squared_diff, List.zipWith_cons_cons, List.sum_cons] at h
      have h1 : 0 ≤ (t - c0) * (t - c0) := mul_self_nonneg _
      have h2 : 0 ≤ norm2_squared_diff x' c' := norm2_squared_diff_nonneg x' c'
      have hc0 : (t - c0) * (t - c0) = 0 := by
        simp only [norm2_squared_diff] at h2 ⊢
        linarith
      have ht : t = c0 := by
        have := mul_self_eq_zero.mp hc0
        linarith
      have hx' : x' = c' := by
        apply ih c' hlen'
        simp only [norm2_squared_diff] at h ⊢
        linarith
      rw [ht, hx']

/-- Full correctness of `Simplex::project`: same length, nonnegative
entries, sum exactly `a`, and minimal half squared Euclidean distance to
the input over the simplex. -/
theorem simplexProject_correct_full (a : T) (ha : 0 < a) (x : List T) (hx : x ≠ []) :
    (simplexProject a x).length = x.length ∧
    (∀ yi ∈ simplexProject a x, 0 ≤ yi) ∧
    (simplexProject a x).sum = a ∧
    ∀ z : List T, z.length = x.length → (∀ zi ∈ z, 0 ≤ zi) → z.sum = a →
      (1/2) * norm2_squared_diff (simplexProject a x) x
        ≤ (1/2) * norm2_squared_diff z x := by
  refine ⟨simplexProject_length a x, simplexProject_nonneg a x,
    simplexProject_sum a ha x hx, ?_⟩
  intro z hlen hznn hzsum
  match x, hx with
  | x0 :: rest, _ =>
    obtain ⟨V, rho, D, hproj, _, _, _, _⟩ := simplexProject_pivot a ha x0 rest
    have hysum : (simplexProject a (x0 :: rest)).sum = a :=
      simplexProject_sum a ha _ (by simp)
    have hbound := sum_sq_bound rho (x0 :: rest) z hlen hznn
    rw [← hproj] at hbound
    rw [hzsum, hysum, sub_self, mul_zero, sub_zero] at hbound
    linarith

/-- C1 theorem.  For every nonempty input `x` and level `a > 0`,
`Simplex::project` outputs a vector of the same length, with nonnegative
entries, summing exactly to `a`, and minimizing half the squared Euclidean
distance to `x` over the simplex. -/
theorem simplex_project_correct (a : T) (ha : 0 < a) (x : List T) (hx : x ≠ []) :
    (simplexProject a x).length = x.length ∧
    (∀ yi ∈ simplexProject a x, 0 ≤ yi) ∧
    (simplexProject a x).sum = a ∧
    ∀ z : List T, z.length = x.length → (∀ zi ∈ z, 0 ≤ zi) → z.sum = a →
      (1/2) * norm2_squared_diff (simplexProject a x) x
        ≤ (1/2) * norm2_squared_diff z x :=
  simplexProject_correct_full a ha x hx

/-- Witness for `simplex_project_correct`: the hypotheses hold and the
conclusion follows at the spec's concrete scenario
`α = 1`, `x = [0.5, 0.5, 0.5]` (whose projection is `[1/3, 1/3, 1/3]`). -/
theorem simplex_project_correct_witness :
    ((0:ℚ) < 1 ∧ ([(1:ℚ)/2, 1/2, 1/2] : List ℚ) ≠ []) ∧
    simplexProject (1:ℚ) [1/2, 1/2, 1/2] = [1/3, 1/3, 1/3] ∧
    ((simplexProject (1:ℚ) [1/2, 1/2, 1/2]).length = ([(1:ℚ)/2, 1/2, 1/2] : List ℚ).length ∧
     (∀ yi ∈ simplexProject (1:ℚ) [1/2, 1/2, 1/2], 0 ≤ yi) ∧
     (simplexProject (1:ℚ) [1/2, 1/2, 1/2]).sum = 1 ∧
     ∀ z : List ℚ, z.length = ([(1:ℚ)/2, 1/2, 1/2] : List ℚ).length →
       (∀ zi ∈ z, 0 ≤ zi) → z.sum = 1 →
       (1/2) * norm2_squared_diff (simplexProject (1:ℚ) [1/2, 1/2, 1/2]) [1/2, 1/2, 1/2]
         ≤ (1/2) * norm2_squared_diff z [1/2, 1/2, 1/2]) :=
  ⟨⟨one_pos, by simp⟩, of_decide_eq_true (by with_unfolding_all rfl),
   simplex_project_correct 1 one_pos [1/2, 1/2, 1/2] (by simp)⟩

/-- The flag returned by `FBSEngine::step` is exactly the comparison
`norm_fpr > tolerance` evaluated on the returned cache. -/
theorem FBSEngine.step_flag (p : FBSProblem T) (c : FBSCache T) (u : List T)
    (f' : Bool) (u' : List T) (c' : FBSCache T)
    (h : FBSEngine.step p c u = .ret (.ok (f', u', c'))) :
    f' = decide (c'.tolerance < c'.norm_fpr) := by
  simp only [FBSEngine.step, FBSEngine.gradient_step] at h
  cases hg : p.gradf u with
  | error e => rw [hg] at h; exact absurd h (by simp)
  | ok g =>
    rw [hg] at h
    simp only [RustResult.ret.injEq, Except.ok.injEq, Prod.mk.injEq] at h
    obtain ⟨h1, _, h3⟩ := h
    rw [← h1, ← h3]

/-- Invariants of the un-timed FBS main loop: the step-call counter
advances with `num_iter`, `num_iter` stays within its budget, the exit
flag matches the exit cache's residual comparison, and a `true` exit flag
means the budget was exhausted. -/
theorem fbsLoop_spec (p : FBSProblem T) :
    ∀ (remaining num_iter : ℕ) (flag : Bool) (u : List T) (c : FBSCache T) (calls : ℕ)
      (ni : ℕ) (flagF : Bool) (uF : List T) (cF : FBSCache T) (callsF : ℕ),
    flag = decide (c.tolerance < c.norm_fpr) →
    fbsLoop p remaining num_iter flag u c calls = .ret (.ok (ni, flagF, uF, cF, callsF)) →
    callsF + num_iter = calls + ni ∧ num_iter ≤ ni ∧ ni ≤ num_iter + remaining ∧
    flagF = decide (cF.tolerance < cF.norm_fpr) ∧
    (flagF = true → ni = num_iter + remaining) := by
  intro remaining
  induction remaining with
  | zero =>
    intro num_iter flag u c calls ni flagF uF cF callsF hinv h
    simp only [fbsLoop, RustResult.ret.injEq, Except.ok.injEq, Prod.mk.injEq] at h
    obtain ⟨rfl, rfl, rfl, rfl, rfl⟩ := h
    exact ⟨by ring, le_refl _, by omega, hinv, fun _ => by omega⟩
  | succ remaining ih =>
    intro num_iter flag u c calls ni flagF uF cF callsF hinv h
    simp only [fbsLoop] at h
    by_cases hflag : flag
    · rw [if_pos hflag] at h
      cases hstep : FBSEngine.step p c u with
      | panicked => rw [hstep] at h; exact absurd h (by simp)
      | ret r =>
        cases r with
        | error e => rw [hstep] at h; exact absurd h (by simp)
        | ok t =>
          obtain ⟨flag', u', c'⟩ := t
          rw [hstep] at h
          have hinv' := FBSEngine.step_flag p c u flag' u' c' hstep
          obtain ⟨g1, g2, g3, g4, g5⟩ := ih (num_iter + 1) flag' u' c' (calls + 1)
            ni flagF uF cF callsF hinv' h
          refine ⟨by omega, by omega, by omega, g4, fun hf => by have := g5 hf; omega⟩
    · rw [if_neg hflag] at h
      simp only [RustResult.ret.injEq, Except.ok.injEq, Prod.mk.injEq] at h
      obtain ⟨rfl, rfl, rfl, rfl, rfl⟩ := h
      refine ⟨by ring, le_refl _, by omega, hinv, fun hf => absurd hf hflag⟩

/-- Counting invariants of the time-capped FBS main loop. -/
theorem fbsLoopTimed_spec (p : FBSProblem T) (dur : T) (elapsed : ℕ → T) :
    ∀ (remaining num_iter : ℕ) (flag : Bool) (u : List T) (c : FBSCache T) (calls : ℕ)
      (ni : ℕ) (flagF : Bool) (uF : List T) (cF : FBSCache T) (callsF : ℕ),
    fbsLoopTimed p dur elapsed remaining num_iter flag u c calls
      = .ret (.ok (ni, flagF, uF, cF, callsF)) →
    callsF + num_iter = calls + ni ∧ num_iter ≤ ni ∧ ni ≤ num_iter + remaining := by
  intro remaining
  induction remaining with
  | zero =>
    intro num_iter flag u c calls ni flagF uF cF callsF h
    simp only [fbsLoopTimed, RustResult.ret.injEq, Except.ok.injEq, Prod.mk.injEq] at h
    obtain ⟨rfl, rfl, rfl, rfl, rfl⟩ := h
    exact ⟨by ring, le_refl _, by omega⟩
  | succ remaining ih =>
    intro num_iter flag u c calls ni flagF uF cF callsF h
    simp only [fbsLoopTimed] at h
    by_cases hflag : flag
    · rw [if_pos hflag] at h
      by_cases htime : dur ≤ elapsed num_iter
      · rw [if_pos htime] at h
        cases hstep : FBSEngine.step p c u with
        | panicked => rw [hstep] at h; exact absurd h (by simp)
        | ret r =>
          cases r with
          | error e => rw [hstep] at h; exact absurd h (by simp)
          | ok t =>
            obtain ⟨flag', u', c'⟩ := t
            rw [hstep] at h
            obtain ⟨g1, g2, g3⟩ := ih (num_iter + 1) flag' u' c' (calls + 1)
              ni flagF uF cF callsF h
            exact ⟨by omega, by omega, by omega⟩
      · rw [if_neg htime] at h
        simp only [RustResult.ret.injEq, Except.ok.injEq, Prod.mk.injEq] at h
        obtain ⟨rfl, rfl, rfl, rfl, rfl⟩ := h
        exact ⟨by ring, le_refl _, by omega⟩
    · rw [if_neg hflag] at h
      simp only [RustResult.ret.injEq, Except.ok.injEq, Prod.mk.injEq] at h
      obtain ⟨rfl, rfl, rfl, rfl, rfl⟩ := h
      exact ⟨by ring, le_refl _, by omega⟩

/-- Dissection of a successful `FBSOptimizer::solve` run: the number of
`step` calls is `num_iter + 1`; `num_iter` respects the budget; the
reported residual is the cache's; the exit status is the `num_iter <
max_iter` comparison; and in an un-timed run that ends below the budget
the final residual is below the tolerance. -/
theorem fbs_solve_ok_inv (opt : FBSOptimizer T) (p : FBSProblem T) (elapsed : ℕ → T)
    (u : List T) (c : FBSCache T) (st : SolverStatus T) (uF : List T) (cF : FBSCache T)
    (calls : ℕ)
    (h : opt.solve p elapsed u c = .ret (.ok (st, uF, cF, calls))) :
    calls = st.num_iter + 1 ∧
    st.num_iter ≤ opt.max_iter ∧
    st.norm_fpr = cF.norm_fpr ∧
    st.exit_status
      = (if st.num_iter < opt.max_iter then ExitStatus.Converged
         else ExitStatus.NotConvergedIterations) ∧
    (opt.max_duration = none → st.num_iter < opt.max_iter →
      cF.norm_fpr ≤ cF.tolerance) := by
  simp only [FBSOptimizer.solve] at h
  cases hstep : FBSEngine.step p c u with
  | panicked => rw [hstep] at h; exact absurd h (by simp)
  | ret r0 =>
    cases r0 with
    | error e => rw [hstep] at h; exact absurd h (by simp)
    | ok t0 =>
      obtain ⟨flag0, u0, c0⟩ := t0
      rw [hstep] at h
      dsimp only at h
      have hinv0 := FBSEngine.step_flag p c u flag0 u0 c0 hstep
      cases hdur : opt.max_duration with
      | none =>
        rw [hdur] at h
        dsimp only at h
        cases hloop : fbsLoop p opt.max_iter 0 flag0 u0 c0 1 with
        | panicked => rw [hloop] at h; exact absurd h (by simp)
        | ret r1 =>
          cases r1 with
          | error e => rw [hloop] at h; exact absurd h (by simp)
          | ok t1 =>
            obtain ⟨ni, flagF, uF', cF', callsF⟩ := t1
            rw [hloop] at h
            dsimp only at h
            obtain ⟨g1, _, g3, g4, g5⟩ :=
              fbsLoop_spec p opt.max_iter 0 flag0 u0 c0 1 ni flagF uF' cF' callsF hinv0 hloop
            cases hcost : p.cost uF' with
            | error e => rw [hcost] at h; exact absurd h (by simp)
            | ok cv =>
              rw [hcost] at h
              dsimp only at h
              simp only [is_finite, scalar_is_finite, Bool.not_true, Bool.or_self,
                Bool.false_eq_true, if_false, RustResult.ret.injEq, Except.ok.injEq,
                Prod.mk.injEq] at h
              obtain ⟨rfl, rfl, rfl, rfl⟩ := h
              dsimp only
              refine ⟨by omega, by omega, rfl, rfl, fun _ hni => ?_⟩
              have hflagF : flagF = false := by
                cases hfc : flagF with
                | false => rfl
                | true => exact absurd (g5 hfc) (by omega)
              rw [hflagF] at g4
              have := of_decide_eq_false g4.symm
              simpa using this
      | some dur =>
        rw [hdur] at h
        dsimp only at h
        cases hloop : fbsLoopTimed p dur elapsed opt.max_iter 0 flag0 u0 c0 1 with
        | panicked => rw [hloop] at h; exact absurd h (by simp)
        | ret r1 =>
          cases r1 with
          | error e => rw [hloop] at h; exact absurd h (by simp)
          | ok t1 =>
            obtain ⟨ni, flagF, uF', cF', callsF⟩ := t1
            rw [hloop] at h
            dsimp only at h
            obtain ⟨g1, _, g3⟩ :=
              fbsLoopTimed_spec p dur elapsed opt.max_iter 0 flag0 u0 c0 1
                ni flagF uF' cF' callsF hloop
            cases hcost : p.cost uF' with
            | error e => rw [hcost] at h; exact absurd h (by simp)
            | ok cv =>
              rw [hcost] at h
              dsimp only at h
              simp only [is_finite, scalar_is_finite, Bool.not_true, Bool.or_self,
                Bool.false_eq_true, if_false, RustResult.ret.injEq, Except.ok.injEq,
                Prod.mk.injEq] at h
              obtain ⟨rfl, rfl, rfl, rfl⟩ := h
              dsimp only
              exact ⟨by omega, by omega, rfl, rfl,
                fun hc _ => (Option.some_ne_none dur hc).elim⟩

/-- C10: `FBSOptimizer::solve` never returns the exit status
`NotConvergedOutOfTime`: every `Ok` run reports either `Converged` or
`NotConvergedIterations`, whether or not a `max_duration` is set. -/
theorem fbs_solve_never_out_of_time (opt : FBSOptimizer T) (p : FBSProblem T)
    (elapsed : ℕ → T) (u : List T) (c : FBSCache T) (st : SolverStatus T)
    (uF : List T) (cF : FBSCache T) (calls : ℕ)
    (h : opt.solve p elapsed u c = .ret (.ok (st, uF, cF, calls))) :
    st.exit_status ≠ ExitStatus.NotConvergedOutOfTime ∧
    (st.exit_status = ExitStatus.Converged ∨
     st.exit_status = ExitStatus.NotConvergedIterations) := by
  obtain ⟨_, _, _, hD, _⟩ := fbs_solve_ok_inv opt p elapsed u c st uF cF calls h
  rw [hD]
  split_ifs <;> simp

/-- Witness for `fbs_solve_never_out_of_time`: a concrete converging run
(zero gradient, identity projection) returns `Ok` with status `Converged`,
and the theorem applies. -/
theorem fbs_solve_never_out_of_time_witness :
    (FBSOptimizer.new (T := ℚ)).solve
        ⟨fun v => v, fun _ => .ok [0], fun _ => .ok 0⟩ (fun _ => 0) [0]
        ⟨[0], [0], 1, 1/1000, 5⟩
      = .ret (.ok (⟨.Converged, 0, 0, 0⟩, [0], ⟨[0], [0], 1, 1/1000, 0⟩, 1)) ∧
    (⟨.Converged, 0, 0, 0⟩ : SolverStatus ℚ).exit_status
      ≠ ExitStatus.NotConvergedOutOfTime :=
  ⟨of_decide_eq_true (by with_unfolding_all rfl),
   (fbs_solve_never_out_of_time (FBSOptimizer.new (T := ℚ))
      ⟨fun v => v, fun _ => .ok [0], fun _ => .ok 0⟩ (fun _ => 0) [0]
      ⟨[0], [0], 1, 1/1000, 5⟩ ⟨.Converged, 0, 0, 0⟩ [0] ⟨[0], [0], 1, 1/1000, 0⟩ 1
      (of_decide_eq_true (by with_unfolding_all rfl))).1⟩

/-- C3 (amended): for a run of `solve` with no `max_duration`, the returned
status is `Converged` iff the iteration count is below the cap and the
final cache residual is at most the tolerance (i.e. the last `step`
returned `false`); in particular `Converged` implies
`norm_fpr ≤ tolerance`.  (With a `max_duration` set, the inverted time
guard can return `Converged` with a residual above the tolerance, see the
counterexample.) -/
theorem fbs_solve_converged_iff (opt : FBSOptimizer T) (p : FBSProblem T)
    (elapsed : ℕ → T) (u : List T) (c : FBSCache T) (st : SolverStatus T)
    (uF : List T) (cF : FBSCache T) (calls : ℕ)
    (hdur : opt.max_duration = none)
    (h : opt.solve p elapsed u c = .ret (.ok (st, uF, cF, calls))) :
    (st.exit_status = ExitStatus.Converged ↔
      st.num_iter < opt.max_iter ∧ cF.norm_fpr ≤ cF.tolerance) ∧
    (st.exit_status = ExitStatus.Converged → cF.norm_fpr ≤ cF.tolerance) := by
  obtain ⟨_, _, _, hD, hE⟩ := fbs_solve_ok_inv opt p elapsed u c st uF cF calls h
  have hE' := hE hdur
  have hfwd : st.exit_status = ExitStatus.Converged →
      st.num_iter < opt.max_iter ∧ cF.norm_fpr ≤ cF.tolerance := by
    intro hcv
    by_cases hlt : st.num_iter < opt.max_iter
    · exact ⟨hlt, hE' hlt⟩
    · rw [hD, if_neg hlt] at hcv
      exact absurd hcv (by simp)
  refine ⟨⟨hfwd, ?_⟩, fun hcv => (hfwd hcv).2⟩
  rintro ⟨hlt, _⟩
  rw [hD, if_pos hlt]

/-- Counterexample to C3 as stated: with `max_duration` set, the inverted
time guard exits the loop immediately, and `solve` returns `Ok` with
status `Converged` although the cache residual (1) exceeds the tolerance
(1/1000). -/
theorem fbs_solve_timed_converged_with_large_fpr :
    ((FBSOptimizer.new (T := ℚ)).with_max_duration 1000).solve
        ⟨fun v => v, fun _ => .ok [1], fun _ => .ok 0⟩ (fun _ => 0) [0]
        ⟨[0], [0], 1, 1/1000, 0⟩
      = .ret (.ok (⟨.Converged, 0, 1, 0⟩, [-1], ⟨[1], [0], 1, 1/1000, 1⟩, 1)) ∧
    ¬((1:ℚ) ≤ 1/1000) :=
  ⟨of_decide_eq_true (by with_unfolding_all rfl), by norm_num⟩

/-- Witness for `fbs_solve_converged_iff`: a concrete un-timed converging
run, hypotheses discharged by evaluation. -/
theorem fbs_solve_converged_iff_witness :
    ((FBSOptimizer.new (T := ℚ)).max_duration = none ∧
     (FBSOptimizer.new (T := ℚ)).solve
        ⟨fun v => v, fun _ => .ok [0], fun _ => .ok 0⟩ (fun _ => 0) [2]
        ⟨[0], [0], 1, 1/10, 7⟩
      = .ret (.ok (⟨.Converged, 0, 0, 0⟩, [2], ⟨[0], [2], 1, 1/10, 0⟩, 1))) ∧
    ((⟨.Converged, 0, 0, 0⟩ : SolverStatus ℚ).exit_status = ExitStatus.Converged ↔
      (⟨.Converged, 0, 0, 0⟩ : SolverStatus ℚ).num_iter < (FBSOptimizer.new (T := ℚ)).max_iter ∧
      (⟨[0], [2], 1, 1/10, 0⟩ : FBSCache ℚ).norm_fpr
        ≤ (⟨[0], [2], 1, 1/10, 0⟩ : FBSCache ℚ).tolerance) ∧
    ((⟨.Converged, 0, 0, 0⟩ : SolverStatus ℚ).exit_status = ExitStatus.Converged →
      (⟨[0], [2], 1, 1/10, 0⟩ : FBSCache ℚ).norm_fpr
        ≤ (⟨[0], [2], 1, 1/10, 0⟩ : FBSCache ℚ).tolerance) :=
  ⟨⟨rfl, of_decide_eq_true (by with_unfolding_all rfl)⟩,
   fbs_solve_converged_iff (FBSOptimizer.new (T := ℚ))
      ⟨fun v => v, fun _ => .ok [0], fun _ => .ok 0⟩ (fun _ => 0) [2]
      ⟨[0], [0], 1, 1/10, 7⟩ ⟨.Converged, 0, 0, 0⟩ [2] ⟨[0], [2], 1, 1/10, 0⟩ 1
      rfl (of_decide_eq_true (by with_unfolding_all rfl))⟩

/-- C2: the time-cap guard of `FBSOptimizer::solve` is inverted
(`dur <= now.elapsed()` instead of `now.elapsed() < dur`).  Concretely:
with `max_duration = 60` and the clock reading 0 at the only guard check
(time amply available), the loop body never runs — `solve` returns after
the single initial step with `num_iter = 0` and (spuriously) `Converged`,
although that step returned `true` (residual 1 > tolerance 1/100) and 100
iterations of budget remained. -/
theorem fbs_solve_timed_stops_with_time_left :
    ((FBSOptimizer.new (T := ℚ)).with_max_duration 60).solve
        ⟨fun v => v, fun _ => .ok [1], fun _ => .ok 0⟩ (fun _ => 0) [0]
        ⟨[0], [0], 1, 1/100, 0⟩
      = .ret (.ok (⟨.Converged, 0, 1, 0⟩, [-1], ⟨[1], [0], 1, 1/100, 1⟩, 1)) ∧
    (0:ℚ) < 60 ∧ ¬((1:ℚ) ≤ 1/100) :=
  ⟨of_decide_eq_true (by with_unfolding_all rfl), by norm_num, by norm_num⟩

/-- C9 (amended): every `Ok` run of `solve` calls `step` at most
`max_iter + 1` times (one initial call plus at most `max_iter` loop
calls), reports `num_iter ≤ max_iter`, and the default `max_iter` is 100. -/
theorem fbs_solve_step_call_budget :
    (∀ (opt : FBSOptimizer T) (p : FBSProblem T) (elapsed : ℕ → T) (u : List T)
        (c : FBSCache T) (st : SolverStatus T) (uF : List T) (cF : FBSCache T)
        (calls : ℕ),
      opt.solve p elapsed u c = .ret (.ok (st, uF, cF, calls)) →
      calls ≤ opt.max_iter + 1 ∧ st.num_iter ≤ opt.max_iter) ∧
    (FBSOptimizer.new (T := T)).max_iter = 100 := by
  refine ⟨?_, rfl⟩
  intro opt p elapsed u c st uF cF calls h
  obtain ⟨hA, hB, _, _, _⟩ := fbs_solve_ok_inv opt p elapsed u c st uF cF calls h
  omega

/-- Counterexample to C9 as stated: with `max_iter = 0` the solver still
calls `step` once, so the number of `step` calls (1) exceeds `max_iter`
(0). -/
theorem fbs_solve_calls_exceed_max_iter :
    ((FBSOptimizer.new (T := ℚ)).with_max_iter 0).solve
        ⟨fun v => v, fun _ => .ok [1], fun _ => .ok 0⟩ (fun _ => 0) [0]
        ⟨[0], [0], 1, 1/1000, 0⟩
      = .ret (.ok (⟨.NotConvergedIterations, 0, 1, 0⟩, [-1], ⟨[1], [0], 1, 1/1000, 1⟩, 1)) ∧
    ¬((1:ℕ) ≤ ((FBSOptimizer.new (T := ℚ)).with_max_iter 0).max_iter) :=
  ⟨of_decide_eq_true (by with_unfolding_all rfl), by simp [FBSOptimizer.new,
    FBSOptimizer.with_max_iter]⟩

/-- Witness for `fbs_solve_step_call_budget`: the bound holds on a concrete
run of the default-configured solver. -/
theorem fbs_solve_step_call_budget_witness :
    (FBSOptimizer.new (T := ℚ)).solve
        ⟨fun v => v, fun _ => .ok [0], fun _ => .ok 0⟩ (fun _ => 0) [3]
        ⟨[0], [0], 1, 1/2, 9⟩
      = .ret (.ok (⟨.Converged, 0, 0, 0⟩, [3], ⟨[0], [3], 1, 1/2, 0⟩, 1)) ∧
    ((1:ℕ) ≤ (FBSOptimizer.new (T := ℚ)).max_iter + 1 ∧
      (⟨.Converged, 0, 0, 0⟩ : SolverStatus ℚ).num_iter
        ≤ (FBSOptimizer.new (T := ℚ)).max_iter) :=
  ⟨of_decide_eq_true (by with_unfolding_all rfl),
   (fbs_solve_step_call_budget (T := ℚ)).1 (FBSOptimizer.new (T := ℚ))
      ⟨fun v => v, fun _ => .ok [0], fun _ => .ok 0⟩ (fun _ => 0) [3]
      ⟨[0], [0], 1, 1/2, 9⟩ ⟨.Converged, 0, 0, 0⟩ [3] ⟨[0], [3], 1, 1/2, 0⟩ 1
      (of_decide_eq_true (by with_unfolding_all rfl))⟩

/-- C4 (amended): a gradient-callback failure during `FBSEngine::step`
makes the step panic (the failed `assert_eq!` aborts); the error is not
returned. -/
theorem fbs_step_panics_on_gradient_failure (p : FBSProblem T) (c : FBSCache T)
    (u : List T) (e : SolverError) (h : p.gradf u = .error e) :
    FBSEngine.step p c u = .panicked := by
  simp only [FBSEngine.step, FBSEngine.gradient_step, h]

/-- Counterexample to C4 as stated: with a gradient callback that reports
`SolverError::Cost`, `step` panics; it does not return that error. -/
theorem fbs_step_not_error_on_gradient_failure :
    FBSEngine.step (⟨fun v => v, fun _ => .error .Cost, fun _ => .ok 0⟩ : FBSProblem ℚ)
        ⟨[0], [0], 1, 1, 0⟩ [0] = .panicked ∧
    FBSEngine.step (⟨fun v => v, fun _ => .error .Cost, fun _ => .ok 0⟩ : FBSProblem ℚ)
        ⟨[0], [0], 1, 1, 0⟩ [0] ≠ .ret (.error SolverError.Cost) :=
  ⟨rfl, by simp [FBSEngine.step, FBSEngine.gradient_step]⟩

/-- Witness for `fbs_step_panics_on_gradient_failure` at a concrete failing
callback. -/
theorem fbs_step_panics_on_gradient_failure_witness :
    (⟨fun v => v, fun _ => .error .Cost, fun _ => .ok 0⟩ : FBSProblem ℚ).gradf [2]
      = .error SolverError.Cost ∧
    FBSEngine.step (⟨fun v => v, fun _ => .error .Cost, fun _ => .ok 0⟩ : FBSProblem ℚ)
        ⟨[0], [0], 1, 1, 0⟩ [2] = .panicked :=
  ⟨rfl, fbs_step_panics_on_gradient_failure _ ⟨[0], [0], 1, 1, 0⟩ [2] .Cost rfl⟩

/-- C5 (amended): the primary termination test compares `‖γ·FPR‖` against
the tolerance itself, `norm_gamma_fpr < tolerance` (not against
`γ·tolerance`); consequently, with the AKKT test disabled the whole exit
condition is equivalent to `norm_gamma_fpr < tolerance`. -/
theorem panoc_exit_condition_iff (c : PANOCCache ℝ)
    (hakkt : c.akkt_tolerance = none) :
    (c.fpr_exit_condition ↔ c.norm_gamma_fpr < c.tolerance) ∧
    (c.exit_condition ↔ c.norm_gamma_fpr < c.tolerance) := by
  constructor
  · exact Iff.rfl
  · unfold PANOCCache.exit_condition PANOCCache.akkt_exit_condition
      PANOCCache.fpr_exit_condition
    rw [hakkt]
    simp

/-- Witness for `panoc_exit_condition_iff` at a concrete cache with the
AKKT test disabled. -/
theorem panoc_exit_condition_iff_witness :
    (⟨⟨[], 1, 1, 1⟩, [], none, [], [], [], [], 0, 0, [], 1/2, 1, 7/10, 1, 0, 0, 0, 0, none⟩
        : PANOCCache ℝ).akkt_tolerance = none ∧
    (((⟨⟨[], 1, 1, 1⟩, [], none, [], [], [], [], 0, 0, [], 1/2, 1, 7/10, 1, 0, 0, 0, 0, none⟩
        : PANOCCache ℝ).fpr_exit_condition ↔ (7:ℝ)/10 < 1) ∧
     ((⟨⟨[], 1, 1, 1⟩, [], none, [], [], [], [], 0, 0, [], 1/2, 1, 7/10, 1, 0, 0, 0, 0, none⟩
        : PANOCCache ℝ).exit_condition ↔ (7:ℝ)/10 < 1)) :=
  ⟨rfl, panoc_exit_condition_iff _ rfl⟩

/-- Counterexample to C5 as stated: a cache with `γ = 1/2`, `τ = 1` and
`‖γ·FPR‖ = 7/10` passes the source's exit test (`7/10 < 1`) although
`‖γ·FPR‖ < γ·τ` fails (`7/10 ≥ 1/2`): the test is not the γ-scaled
comparison the claim describes. -/
theorem panoc_fpr_exit_not_gamma_scaled :
    (⟨⟨[], 1, 1, 1⟩, [], none, [], [], [], [], 0, 0, [], 1/2, 1, 7/10, 1, 0, 0, 0, 0, none⟩
        : PANOCCache ℚ).fpr_exit_condition ∧
    ¬((7:ℚ)/10
      < (⟨⟨[], 1, 1, 1⟩, [], none, [], [], [], [], 0, 0, [], 1/2, 1, 7/10, 1, 0, 0, 0, 0, none⟩
          : PANOCCache ℚ).gamma
        * (⟨⟨[], 1, 1, 1⟩, [], none, [], [], [], [], 0, 0, [], 1/2, 1, 7/10, 1, 0, 0, 0, 0, none⟩
          : PANOCCache ℚ).tolerance) := by
  constructor
  · show (7:ℚ)/10 < 1
    norm_num
  · show ¬((7:ℚ)/10 < 1/2 * 1)
    norm_num

/-- C6 (amended): `PANOCCache::reset` empties the LBFGS buffer, restores
`tau = 1`, and zeroes `lhs_ls`, `rhs_ls`, `lipschitz_constant`, `sigma`,
`cost_value`, `gamma` and the iteration counter; it leaves the tolerance,
the AKKT tolerance, **the stored residual norm `norm_gamma_fpr`** and all
vector buffers unchanged. -/
theorem panoc_reset_spec (c : PANOCCache T) :
    (c.reset).lbfgs.buffer = [] ∧
    (c.reset).tau = 1 ∧
    (c.reset).lhs_ls = 0 ∧ (c.reset).rhs_ls = 0 ∧
    (c.reset).lipschitz_constant = 0 ∧ (c.reset).sigma = 0 ∧
    (c.reset).cost_value = 0 ∧ (c.reset).gamma = 0 ∧ (c.reset).iteration = 0 ∧
    (c.reset).tolerance = c.tolerance ∧
    (c.reset).norm_gamma_fpr = c.norm_gamma_fpr ∧
    (c.reset).akkt_tolerance = c.akkt_tolerance ∧
    (c.reset).gradient_u = c.gradient_u ∧
    (c.reset).gradient_u_previous = c.gradient_u_previous ∧
    (c.reset).u_half_step = c.u_half_step ∧
    (c.reset).gradient_step = c.gradient_step ∧
    (c.reset).direction_lbfgs = c.direction_lbfgs ∧
    (c.reset).u_plus = c.u_plus ∧
    (c.reset).gamma_fpr = c.gamma_fpr :=
  ⟨rfl, rfl, rfl, rfl, rfl, rfl, rfl, rfl, rfl, rfl, rfl, rfl, rfl, rfl, rfl,
   rfl, rfl, rfl, rfl⟩

/-- Counterexample to C6 as stated: `reset` does *not* zero the stored
residual norm — on a cache with `norm_gamma_fpr = 5` the value survives
the reset. -/
theorem panoc_reset_keeps_norm_gamma_fpr :
    ((⟨⟨[([1], [1])], 1, 1, 1⟩, [2], none, [], [], [], [], 3, 4, [], 6, 1, 5, 1/2, 7, 8, 9, 11,
        none⟩ : PANOCCache ℚ).reset).norm_gamma_fpr = 5 ∧
    ¬(((⟨⟨[([1], [1])], 1, 1, 1⟩, [2], none, [], [], [], [], 3, 4, [], 6, 1, 5, 1/2, 7, 8, 9, 11,
        none⟩ : PANOCCache ℚ).reset).norm_gamma_fpr = 0) := by
  refine ⟨rfl, ?_⟩
  show ¬((5:ℚ) = 0)
  norm_num

/-! ### Idempotence of the projections (toward C7) -/

theorem zipMutate_of_length_le (f : T → T → T) (x c : List T)
    (h : x.length ≤ c.length) : zipMutate f x c = List.zipWith f x c := by
  unfold zipMutate
  rw [List.drop_eq_nil_of_le h, List.append_nil]

theorem zipMutate_length (f : T → T → T) (x c : List T) :
    (zipMutate f x c).length = x.length := by
  unfold zipMutate
  simp only [List.length_append, List.length_zipWith, List.length_drop]
  omega

theorem zipWith_idem (f : T → T → T) (hf : ∀ a b, f (f a b) b = f a b) :
    ∀ x c : List T, List.zipWith f (List.zipWith f x c) c = List.zipWith f x c := by
  intro x
  induction x with
  | nil => intro c; simp
  | cons x0 xt ih =>
    intro c
    match c with
    | [] => simp
    | c0 :: ct => simp [hf, ih]

theorem map_idem (f : T → T) (hf : ∀ a, f (f a) = f a) (x : List T) :
    (x.map f).map f = x.map f := by
  rw [List.map_map]
  exact List.map_congr_left fun a _ => hf a

theorem zeroProject_idem (x : List T) :
    zeroProject (zeroProject x) = zeroProject x := by
  simp [zeroProject, List.map_map]

theorem noConstraintsProject_idem (x : List T) :
    noConstraintsProject (noConstraintsProject x) = noConstraintsProject x := rfl

theorem zipWith_two_stage_idem (f g : T → T → T)
    (hfg : ∀ a l h, g (f (g (f a l) h) l) h = g (f a l) h) :
    ∀ (x lo hi : List T),
    List.zipWith g (List.zipWith f (List.zipWith g (List.zipWith f x lo) hi) lo) hi
      = List.zipWith g (List.zipWith f x lo) hi := by
  intro x
  induction x with
  | nil => intro lo hi; simp
  | cons x0 xt ih =>
    intro lo hi
    match lo with
    | [] => simp
    | l0 :: lt =>
      match hi with
      | [] => simp
      | h0 :: ht => simp [hfg, ih]

theorem rectangleProject_idem (lo hi : Option (List T)) (x : List T)
    (hlo : ∀ l ∈ lo, l.length = x.length) (hhi : ∀ h ∈ hi, h.length = x.length) :
    rectangleProject lo hi (rectangleProject lo hi x) = rectangleProject lo hi x := by
  have hclampLo : ∀ a l : T,
      (fun xi lo_i => if xi < lo_i then lo_i else xi)
        ((fun xi lo_i => if xi < lo_i then lo_i else xi) a l) l
      = (fun xi lo_i => if xi < lo_i then lo_i else xi) a l := by
    intro a l
    dsimp only
    split_ifs with h1 h2 h3 <;> first | rfl | linarith
  have hclampHi : ∀ a h : T,
      (fun xi hi_i => if hi_i < xi then hi_i else xi)
        ((fun xi hi_i => if hi_i < xi then hi_i else xi) a h) h
      = (fun xi hi_i => if hi_i < xi then hi_i else xi) a h := by
    intro a h
    dsimp only
    split_ifs with h1 h2 h3 <;> first | rfl | linarith
  match lo, hi with
  | none, none => rfl
  | some l, none =>
    have hl := hlo l (by simp)
    simp only [rectangleProject]
    simp only [zipMutate_of_length_le, zipMutate_length, List.length_zipWith,
      hl, le_refl, min_self]
    exact zipWith_idem _ hclampLo x l
  | none, some h =>
    have hh := hhi h (by simp)
    simp only [rectangleProject]
    simp only [zipMutate_of_length_le, zipMutate_length, List.length_zipWith,
      hh, le_refl, min_self]
    exact zipWith_idem _ hclampHi x h
  | some l, some h =>
    have hl := hlo l (by simp)
    have hh := hhi h (by simp)
    simp only [rectangleProject]
    simp only [zipMutate_of_length_le, zipMutate_length, List.length_zipWith,
      hl, hh, le_refl, min_self]
    have hfg : ∀ (a li hi_ : T),
        (fun xi hi_i => if hi_i < xi then hi_i else xi)
          ((fun xi lo_i => if xi < lo_i then lo_i else xi)
            ((fun xi hi_i => if hi_i < xi then hi_i else xi)
              ((fun xi lo_i => if xi < lo_i then lo_i else xi) a li) hi_) li) hi_
        = (fun xi hi_i => if hi_i < xi then hi_i else xi)
            ((fun xi lo_i => if xi < lo_i then lo_i else xi) a li) hi_ := by
      intro a li hi_
      dsimp only
      split_ifs <;> first | rfl | linarith
    exact zipWith_two_stage_idem _ _ hfg x l h

theorem abs_signum_eq_one (t : T) : |signum t| = 1 := by
  unfold signum
  split_ifs <;> simp

theorem ballInfProject_idem (c : Option (List T)) (r : T) (x : List T)
    (hr : 0 ≤ r) (hc : ∀ cc ∈ c, cc.length = x.length) :
    ballInfProject c r (ballInfProject c r x) = ballInfProject c r x := by
  match c with
  | none =>
    simp only [ballInfProject]
    apply map_idem
    intro a
    dsimp only
    split_ifs with h1 h2
    · exfalso
      rw [abs_mul, abs_signum_eq_one, one_mul, abs_of_nonneg hr] at h2
      exact lt_irrefl r h2
    · rfl
    · rfl
  | some cc =>
    have hl := hc cc (by simp)
    simp only [ballInfProject]
    simp only [zipMutate_of_length_le, zipMutate_length, List.length_zipWith,
      hl, le_refl, min_self]
    apply zipWith_idem
    intro a ci
    dsimp only
    split_ifs with h1 h2 h3
    · exfalso
      rw [add_sub_cancel_left, abs_mul, abs_signum_eq_one, one_mul,
        abs_of_nonneg hr] at h2
      exact lt_irrefl r h2
    · rfl
    · rfl

theorem inner_product_sub_smul (k : T) :
    ∀ (x c : List T),
    inner_product (List.zipWith (fun xi ci => xi - k * ci) x c) c
      = inner_product x c - k * norm2_squared (c.take x.length) := by
  intro x
  induction x with
  | nil => intro c; simp [inner_product, norm2_squared]
  | cons x0 xt ih =>
    intro c
    match c with
    | [] => simp [inner_product, norm2_squared]
    | c0 :: ct =>
      simp only [List.zipWith_cons_cons, inner_product, List.sum_cons, List.take,
        norm2_squared, List.map_cons] at ih ⊢
      have := ih ct
      simp only [inner_product, norm2_squared] at this
      rw [this]
      ring

theorem zipWith_fst :
    ∀ (y c : List T), y.length ≤ c.length →
    List.zipWith (fun a _ => a) y c = y := by
  intro y
  induction y with
  | nil => intro c _; simp
  | cons y0 yt ih =>
    intro c hlen
    match c with
    | [] => simp at hlen
    | c0 :: ct =>
      simp only [List.zipWith_cons_cons, List.cons.injEq, true_and]
      exact ih ct (by simpa using hlen)

theorem hyperplaneProject_idem (c : List T) (b : T) (x : List T)
    (hlen : c.length = x.length) (hc : norm2_squared c ≠ 0) :
    hyperplaneProject c b (hyperplaneProject c b x) = hyperplaneProject c b x := by
  simp only [hyperplaneProject]
  simp only [zipMutate_of_length_le, zipMutate_length, List.length_zipWith,
    hlen, le_refl, min_self]
  set k := (inner_product x c - b) / norm2_squared c with hk
  have htake : c.take x.length = c := List.take_of_length_le (by omega)
  have hip : inner_product (List.zipWith (fun xi ci => xi - k * ci) x c) c = b := by
    rw [inner_product_sub_smul k x c, htake, hk]
    field_simp
  rw [hip, sub_self, zero_div]
  have hfun : (fun (xi ci : T) => xi - 0 * ci) = fun (a : T) (_ : T) => a := by
    funext a b
    ring
  rw [hfun]
  exact zipWith_fst _ c (by simp only [List.length_zipWith]; omega)

theorem norm2_squared_nonneg (x : List T) : 0 ≤ norm2_squared x := by
  apply List.sum_nonneg
  intro t ht
  obtain ⟨v, _, rfl⟩ := List.mem_map.mp ht
  exact mul_self_nonneg v

theorem norm2_nonneg (x : List ℝ) : 0 ≤ norm2 x := Real.sqrt_nonneg _

theorem norm2_squared_map_mul (k : T) (x : List T) :
    norm2_squared (x.map fun v => v * k) = k ^ 2 * norm2_squared x := by
  induction x with
  | nil => simp [norm2_squared]
  | cons v x' ih =>
    simp only [List.map_cons, norm2_squared, List.sum_cons] at ih ⊢
    rw [ih]
    ring

theorem norm2_map_mul (k : ℝ) (x : List ℝ) (hk : 0 ≤ k) :
    norm2 (x.map fun v => v * k) = k * norm2 x := by
  unfold norm2
  rw [norm2_squared_map_mul, Real.sqrt_mul (sq_nonneg k), Real.sqrt_sq hk]

theorem norm2_squared_diff_center_scale (k : T) :
    ∀ (x c : List T),
    norm2_squared_diff (List.zipWith (fun xi ci => ci + k * (xi - ci)) x c) c
      = k ^ 2 * norm2_squared_diff (x.take c.length) (c.take x.length) := by
  intro x
  induction x with
  | nil => intro c; simp [norm2_squared_diff]
  | cons x0 xt ih =>
    intro c
    match c with
    | [] => simp [norm2_squared_diff]
    | c0 :: ct =>
      simp only [List.zipWith_cons_cons, norm2_squared_diff, List.sum_cons,
        List.take] at ih ⊢
      rw [ih ct]
      ring

theorem norm2_squared_diff_scale_eq (k : ℝ) (x c : List ℝ) (h : c.length = x.length) :
    norm2_squared_diff (List.zipWith (fun xi ci => ci + k * (xi - ci)) x c) c
      = k ^ 2 * norm2_squared_diff x c := by
  rw [norm2_squared_diff_center_scale k x c,
    List.take_of_length_le (by omega : x.length ≤ c.length),
    List.take_of_length_le (by omega : c.length ≤ x.length)]

/-- After the out-of-ball rescale, the distance to the center is exactly
the radius. -/
theorem ball2_rescaled_distance (c : List ℝ) (r : ℝ) (x : List ℝ)
    (hlen : c.length = x.length) (hr : 0 < r)
    (hpos : 0 < Real.sqrt (norm2_squared_diff x c)) :
    Real.sqrt (norm2_squared_diff
      (List.zipWith
        (fun xi ci => ci + r * (xi - ci) / Real.sqrt (norm2_squared_diff x c)) x c)
      c) = r := by
  set nd := Real.sqrt (norm2_squared_diff x c) with hnd
  have hnd0 : 0 < nd := hpos
  have hfun : (fun (xi ci : ℝ) => ci + r * (xi - ci) / nd)
      = fun (xi ci : ℝ) => ci + (r / nd) * (xi - ci) := by
    funext xi ci
    rw [mul_div_right_comm]
  rw [hfun, norm2_squared_diff_scale_eq _ x c hlen]
  have hsq : nd ^ 2 = norm2_squared_diff x c := by
    rw [hnd]
    exact Real.sq_sqrt (norm2_squared_diff_nonneg x c)
  rw [← hsq, show (r / nd) ^ 2 * nd ^ 2 = r ^ 2 from by field_simp]
  exact Real.sqrt_sq (le_of_lt hr)

/-- Idempotence of `Ball2::project`. -/
theorem ball2Project_idem (c : Option (List ℝ)) (r : ℝ) (x : List ℝ)
    (hr : 0 < r) (hc : ∀ cc ∈ c, cc.length = x.length) :
    ball2Project c r (ball2Project c r x) = ball2Project c r x := by
  match c with
  | none =>
    have hinner : ∀ w : List ℝ, ball2Project none r w
        = if r < norm2 w then w.map (fun xi => xi / (norm2 w / r)) else w :=
      fun w => rfl
    by_cases h1 : r < norm2 x
    · have hN : 0 < norm2 x := lt_trans hr h1
      have hyval : ball2Project none r x = x.map fun xi => xi / (norm2 x / r) := by
        rw [hinner, if_pos h1]
      have hfun : (fun xi : ℝ => xi / (norm2 x / r)) = fun xi : ℝ => xi * (r / norm2 x) := by
        funext v
        rw [div_eq_mul_inv, inv_div]
      have hynorm : norm2 (x.map fun xi => xi / (norm2 x / r)) = r := by
        rw [hfun, norm2_map_mul _ _ (div_nonneg hr.le (norm2_nonneg x)),
          div_mul_cancel₀ r (ne_of_gt hN)]
      rw [hyval, hinner, hynorm, if_neg (lt_irrefl r)]
    · have hx : ball2Project none r x = x := by rw [hinner, if_neg h1]
      rw [hx]
      exact hx
  | some cc =>
    have hlen : cc.length = x.length := hc cc (by simp)
    have hinner : ∀ w : List ℝ, ball2Project (some cc) r w
        = if r < Real.sqrt (norm2_squared_diff w cc) then
            zipMutate
              (fun xi ci => ci + r * (xi - ci) / Real.sqrt (norm2_squared_diff w cc)) w cc
          else w :=
      fun w => rfl
    by_cases h1 : r < Real.sqrt (norm2_squared_diff x cc)
    · have hyval : ball2Project (some cc) r x
          = List.zipWith
              (fun xi ci => ci + r * (xi - ci) / Real.sqrt (norm2_squared_diff x cc)) x cc := by
        rw [hinner, if_pos h1, zipMutate_of_length_le]
        omega
      have hynorm := ball2_rescaled_distance cc r x hlen hr (lt_trans hr h1)
      rw [hyval, hinner, hynorm, if_neg (lt_irrefl r)]
    · have hx : ball2Project (some cc) r x = x := by rw [hinner, if_neg h1]
      rw [hx]
      exact hx

/-- Pointwise, rescaling a displacement by `r / r` is the identity. -/
theorem zipWith_rescale_self (r : ℝ) (hr : r ≠ 0) :
    ∀ (y c : List ℝ), y.length ≤ c.length →
    List.zipWith (fun yi ci => ci + r * (yi - ci) / r) y c = y := by
  intro y
  induction y with
  | nil => intro c _; simp
  | cons y0 yt ih =>
    intro c hl
    match c with
    | [] => simp at hl
    | c0 :: ct =>
      simp only [List.zipWith_cons_cons, List.cons.injEq]
      constructor
      · field_simp
      · exact ih ct (by simpa using hl)

theorem norm2_squared_eq_zero_of_all_zero (x : List T) (h : ∀ xi ∈ x, xi = 0) :
    norm2_squared x = 0 := by
  apply List.sum_eq_zero
  intro t ht
  obtain ⟨v, hv, rfl⟩ := List.mem_map.mp ht
  rw [h v hv, mul_zero]

/-- Idempotence of `Sphere2::project`, under the side conditions that make
the snap branch consistent: the radius must exceed the snap threshold
`ε = 10⁻¹²`, and in the centerless case the input must either be farther
than `ε` from the origin or be exactly the origin (a near-but-not-exactly
zero input is shifted, not snapped, to an off-sphere point whose second
projection moves it again). -/
theorem sphere2Project_idem (c : Option (List ℝ)) (r : ℝ) (x : List ℝ)
    (hr : (1:ℝ)/10^12 < r) (hx : x ≠ [])
    (hc : ∀ cc ∈ c, cc.length = x.length)
    (hnone : c = none → (1:ℝ)/10^12 < norm2 x ∨ ∀ xi ∈ x, xi = 0) :
    sphere2Project c r (sphere2Project c r x) = sphere2Project c r x := by
  have hr0 : 0 < r := lt_trans (by norm_num) hr
  match c with
  | some cc =>
    have hlen : cc.length = x.length := hc cc (by simp)
    have hinner : ∀ w : List ℝ, sphere2Project (some cc) r w
        = if Real.sqrt (norm2_squared_diff w cc) ≤ (1:ℝ)/10^12 then
            (match cc with | c0 :: ct => (c0 + r) :: ct | [] => [])
          else
            zipMutate
              (fun xi ci => ci + r * (xi - ci) / Real.sqrt (norm2_squared_diff w cc))
              w cc :=
      fun w => rfl
    match cc, hlen with
    | [], hlen => exact absurd (List.length_eq_zero.mp hlen.symm) hx
    | c0 :: ct, hlen =>
      by_cases h1 : Real.sqrt (norm2_squared_diff x (c0 :: ct)) ≤ (1:ℝ)/10^12
      · -- snap branch: the snapped point is at distance exactly r from c
        have hyval : sphere2Project (some (c0 :: ct)) r x = (c0 + r) :: ct := by
          rw [hinner, if_pos h1]
        have hynd : Real.sqrt (norm2_squared_diff ((c0 + r) :: ct) (c0 :: ct)) = r := by
          have : norm2_squared_diff ((c0 + r) :: ct) (c0 :: ct) = r * r := by
            simp only [norm2_squared_diff, List.zipWith_cons_cons, List.sum_cons,
              add_sub_cancel_left]
            have := norm2_squared_diff_self ct
            simp only [norm2_squared_diff] at this
            rw [this, add_zero]
          rw [this, Real.sqrt_mul_self hr0.le]
        rw [hyval, hinner, hynd, if_neg (by linarith)]
        rw [zipMutate_of_length_le _ _ _ (by simp)]
        exact zipWith_rescale_self r (ne_of_gt hr0) _ _ (by simp)
      · -- rescale branch: the rescaled point is at distance exactly r from c
        have hpos : 0 < Real.sqrt (norm2_squared_diff x (c0 :: ct)) := by
          push_neg at h1
          linarith
        have hyval : sphere2Project (some (c0 :: ct)) r x
            = List.zipWith
                (fun xi ci =>
                  ci + r * (xi - ci) / Real.sqrt (norm2_squared_diff x (c0 :: ct)))
                x (c0 :: ct) := by
          rw [hinner, if_neg h1, zipMutate_of_length_le]
          omega
        have hynd := ball2_rescaled_distance (c0 :: ct) r x hlen hr0 hpos
        rw [hyval, hinner, hynd, if_neg (by linarith)]
        rw [zipMutate_of_length_le _ _ _ (by simp only [List.length_zipWith]; omega)]
        exact zipWith_rescale_self r (ne_of_gt hr0) _ _
          (by simp only [List.length_zipWith]; omega)
  | none =>
    have hinner : ∀ w : List ℝ, sphere2Project none r w
        = if norm2 w ≤ (1:ℝ)/10^12 then
            (match w with | x0 :: xt => (x0 + r) :: xt | [] => [])
          else w.map fun xi => xi * (r / norm2 w) :=
      fun w => rfl
    rcases hnone rfl with hbig | hzero
    · -- the input is far from the origin: rescale twice
      have hN : 0 < norm2 x := lt_trans (by norm_num) hbig
      have hyval : sphere2Project none r x = x.map fun xi => xi * (r / norm2 x) := by
        rw [hinner, if_neg (by linarith)]
      have hynorm : norm2 (x.map fun xi => xi * (r / norm2 x)) = r := by
        rw [norm2_map_mul _ _ (div_nonneg hr0.le hN.le),
          div_mul_cancel₀ r (ne_of_gt hN)]
      rw [hyval, hinner, hynorm, if_neg (by linarith)]
      have : r / r = 1 := div_self (ne_of_gt hr0)
      rw [this]
      simp
    · -- the input is exactly the origin: snap, then the rescale is trivial
      have hN : norm2 x = 0 := by
        unfold norm2
        rw [norm2_squared_eq_zero_of_all_zero x hzero, Real.sqrt_zero]
      match x, hx with
      | x0 :: xt, _ =>
        have hx0 : x0 = 0 := hzero x0 (by simp)
        have hxt : ∀ xi ∈ xt, xi = 0 := fun xi hxi => hzero xi (by simp [hxi])
        have hyval : sphere2Project none r (x0 :: xt) = (x0 + r) :: xt := by
          rw [hinner, if_pos (by rw [hN]; norm_num)]
        have hynorm : norm2 ((x0 + r) :: xt) = r := by
          unfold norm2
          have hsplit : norm2_squared ((x0 + r) :: xt)
              = (x0 + r) * (x0 + r) + norm2_squared xt := by
            simp [norm2_squared]
          have : norm2_squared ((x0 + r) :: xt) = r * r := by
            rw [hsplit, hx0, zero_add, norm2_squared_eq_zero_of_all_zero xt hxt,
              add_zero]
          rw [this, Real.sqrt_mul_self hr0.le]
        rw [hyval, hinner, hynorm, if_neg (by linarith)]
        have : r / r = 1 := div_self (ne_of_gt hr0)
        rw [this]
        simp

theorem getLastD_zero_of_all_zero :
    ∀ (y : List ℝ) (d : ℝ), d = 0 → (∀ v ∈ y, v = 0) → y.getLastD d = 0 := by
  intro y
  induction y with
  | nil => intro d hd _; simpa using hd
  | cons b l ih =>
    intro d _ h
    rw [List.getLastD_cons]
    exact ih b (h b (by simp)) fun v hv => h v (by simp [hv])

/-- Idempotence of `SecondOrderCone::project`. -/
theorem socProject_idem (alpha : ℝ) (x : List ℝ) (ha : 0 < alpha) :
    socProject alpha (socProject alpha x) = socProject alpha x := by
  have hinner : ∀ w : List ℝ, socProject alpha w
      = if alpha * norm2 w.dropLast ≤ -(w.getLastD 0) then w.map (fun _ => 0)
        else if alpha * w.getLastD 0 < norm2 w.dropLast then
          (w.dropLast.map fun v =>
            v * alpha * ((alpha * norm2 w.dropLast + w.getLastD 0) / (alpha ^ 2 + 1))
              / norm2 w.dropLast)
          ++ [(alpha * norm2 w.dropLast + w.getLastD 0) / (alpha ^ 2 + 1)]
        else w :=
    fun w => rfl
  by_cases h1 : alpha * norm2 x.dropLast ≤ -(x.getLastD 0)
  · -- zeroing branch: the zero vector is a fixed point
    have hyval : socProject alpha x = x.map fun _ => (0:ℝ) := by
      rw [hinner, if_pos h1]
    have hzero : ∀ v ∈ x.map fun _ => (0:ℝ), v = 0 := by
      intro v hv
      obtain ⟨_, _, rfl⟩ := List.mem_map.mp hv
      rfl
    have hzlast : (x.map fun _ => (0:ℝ)).getLastD 0 = 0 :=
      getLastD_zero_of_all_zero _ 0 rfl hzero
    have hznorm : norm2 (x.map fun _ => (0:ℝ)).dropLast = 0 := by
      unfold norm2
      rw [norm2_squared_eq_zero_of_all_zero _
        (fun v hv => hzero v ((List.dropLast_sublist _).subset hv)), Real.sqrt_zero]
    rw [hyval, hinner, hzlast, hznorm, if_pos (by norm_num), List.map_map]
    rfl
  · push_neg at h1
    by_cases h2 : alpha * x.getLastD 0 < norm2 x.dropLast
    · -- rescale branch: the rescaled point sits on the cone boundary
      set N := norm2 x.dropLast with hN
      set r := x.getLastD 0 with hrdef
      have hN0 : 0 < N := by
        rcases lt_or_eq_of_le (norm2_nonneg x.dropLast) with h | h
        · exact h
        · exfalso
          have hNz : N = 0 := by rw [hN, ← h]
          rw [hNz] at h1 h2
          nlinarith
      set beta := (alpha * N + r) / (alpha ^ 2 + 1) with hbeta
      have hbeta0 : 0 < beta := by
        rw [hbeta]
        apply div_pos (by nlinarith) (by positivity)
      have hyval : socProject alpha x
          = (x.dropLast.map fun v => v * alpha * beta / N) ++ [beta] := by
        rw [hinner, if_neg (by rw [← hN, ← hrdef]; linarith), if_pos (by rw [← hN, ← hrdef]; exact h2)]
      have hfun : (fun v : ℝ => v * alpha * beta / N) = fun v : ℝ => v * (alpha * beta / N) := by
        funext v
        ring
      have hz' : ((x.dropLast.map fun v => v * alpha * beta / N) ++ [beta]).dropLast
          = x.dropLast.map fun v => v * alpha * beta / N := List.dropLast_concat
      have hr' : ((x.dropLast.map fun v => v * alpha * beta / N) ++ [beta]).getLastD 0
          = beta := List.getLastD_concat _ _ _
      have hN' : norm2 ((x.dropLast.map fun v => v * alpha * beta / N) ++ [beta]).dropLast
          = alpha * beta := by
        rw [hz', hfun, norm2_map_mul _ _ (by positivity),
          div_mul_cancel₀ _ (ne_of_gt hN0)]
      rw [hyval, hinner, hr', hN']
      rw [if_neg (by nlinarith), if_neg (by nlinarith)]
    · -- interior: the projection is the identity
      have hx : socProject alpha x = x := by
        rw [hinner, if_neg (by linarith), if_neg h2]
      rw [hx]
      exact hx

/-- Idempotence of `Simplex::project`, via uniqueness of the Euclidean
projection: projecting a feasible point returns the point itself. -/
theorem simplexProject_idem (a : T) (ha : 0 < a) (x : List T) (hx : x ≠ []) :
    simplexProject a (simplexProject a x) = simplexProject a x := by
  obtain ⟨hlen, hnn, hsum, _⟩ := simplexProject_correct_full a ha x hx
  have hyne : simplexProject a x ≠ [] := by
    intro h
    rw [h] at hlen
    exact hx (List.length_eq_zero.mp hlen.symm)
  obtain ⟨hlen2, _, _, hmin2⟩ := simplexProject_correct_full a ha (simplexProject a x) hyne
  have hle : norm2_squared_diff (simplexProject a (simplexProject a x))
      (simplexProject a x) ≤ 0 := by
    have := hmin2 (simplexProject a x) rfl hnn hsum
    rw [norm2_squared_diff_self] at this
    linarith
  exact norm2_squared_diff_eq_zero _ _ hlen2
    (le_antisymm hle (norm2_squared_diff_nonneg _ _))

theorem norm1_zipWith_signum :
    ∀ (w u : List T), (∀ ui ∈ u, 0 ≤ ui) →
    norm1 (List.zipWith (fun wi ui => signum wi * ui) w u) = (u.take w.length).sum := by
  intro w
  induction w with
  | nil => intro u _; simp [norm1]
  | cons w0 wt ih =>
    intro u hu
    match u with
    | [] => simp [norm1]
    | u0 :: ut =>
      have hu0 : 0 ≤ u0 := hu u0 (by simp)
      have hut : ∀ ui ∈ ut, 0 ≤ ui := fun ui hui => hu ui (by simp [hui])
      simp only [List.zipWith_cons_cons, norm1, List.map_cons, List.sum_cons,
        List.take, List.length_cons] at ih ⊢
      rw [abs_mul, abs_signum_eq_one, one_mul, abs_of_nonneg hu0]
      have := ih ut hut
      simp only [norm1] at this
      rw [this]

theorem ball1ProjectOrigin_length (r : T) (w : List T) :
    (ball1ProjectOrigin r w).length = w.length := by
  unfold ball1ProjectOrigin
  split_ifs <;> simp [zipMutate_length]

/-- When the origin-centered ℓ₁ projection actually projects, the output
has ℓ₁ norm exactly `r`. -/
theorem ball1ProjectOrigin_norm1 (r : T) (hr : 0 < r) (w : List T)
    (hout : r < norm1 w) :
    norm1 (ball1ProjectOrigin r w) = r := by
  have hwne : w ≠ [] := by
    intro h
    rw [h] at hout
    simp [norm1] at hout
    linarith
  have hune : (w.map fun xi => |xi|) ≠ [] := by
    simpa using hwne
  obtain ⟨hlen, hnn, hsum, _⟩ :=
    simplexProject_correct_full r hr (w.map fun xi => |xi|) hune
  unfold ball1ProjectOrigin
  rw [if_pos hout,
    zipMutate_of_length_le _ _ _ (by rw [hlen]; simp),
    norm1_zipWith_signum w _ hnn,
    List.take_of_length_le (by rw [hlen]; simp), hsum]

theorem ball1ProjectOrigin_idem (r : T) (hr : 0 < r) (w : List T) :
    ball1ProjectOrigin r (ball1ProjectOrigin r w) = ball1ProjectOrigin r w := by
  by_cases h : r < norm1 w
  · have hnorm := ball1ProjectOrigin_norm1 r hr w h
    conv_lhs => rw [ball1ProjectOrigin]
    rw [if_neg (by rw [hnorm]; exact lt_irrefl r)]
  · have hid : ball1ProjectOrigin r w = w := by
      unfold ball1ProjectOrigin
      rw [if_neg h]
    rw [hid]
    exact hid

theorem zipWith_add_sub_cancel :
    ∀ (y c : List T), y.length ≤ c.length →
    List.zipWith (fun a b => a - b) (List.zipWith (fun a b => a + b) y c) c = y := by
  intro y
  induction y with
  | nil => intro c _; simp
  | cons y0 yt ih =>
    intro c hl
    match c with
    | [] => simp at hl
    | c0 :: ct =>
      simp only [List.zipWith_cons_cons, add_sub_cancel_right, List.cons.injEq, true_and]
      exact ih ct (by simpa using hl)

/-- Idempotence of `Ball1::project`. -/
theorem ball1Project_idem (c : Option (List T)) (r : T) (x : List T)
    (hr : 0 < r) (hc : ∀ cc ∈ c, cc.length = x.length) :
    ball1Project c r (ball1Project c r x) = ball1Project c r x := by
  match c with
  | none => exact ball1ProjectOrigin_idem r hr x
  | some cc =>
    have hlen : cc.length = x.length := hc cc (by simp)
    simp only [ball1Project]
    rw [zipMutate_of_length_le _ x cc (by omega)]
    set w1 := List.zipWith (fun xi ci => xi - ci) x cc with hw1
    have hw1len : w1.length = x.length := by
      rw [hw1]
      simp only [List.length_zipWith]
      omega
    set y := ball1ProjectOrigin r w1 with hy
    have hylen : y.length = x.length := by
      rw [hy, ball1ProjectOrigin_length, hw1len]
    rw [zipMutate_of_length_le _ y cc (by omega)]
    rw [zipMutate_of_length_le _ (List.zipWith (fun xi ci => xi + ci) y cc) cc
      (by simp only [List.length_zipWith]; omega)]
    rw [zipWith_add_sub_cancel y cc (by omega)]
    have hyy : ball1ProjectOrigin r y = y := ball1ProjectOrigin_idem r hr w1
    rw [hyy]
    rw [zipMutate_of_length_le _ y cc (by omega)]

/-- C7 (amended): `project` is idempotent for every constraint-set variant
on inputs of valid dimension — except that for `Sphere2` the radius must
exceed the snap threshold `ε = 10⁻¹²`, and a centerless `Sphere2` input
must be farther than `ε` from the origin or exactly the origin.  (Inside
that exceptional band the snap branch moves an already-projected point
again; see the counterexample.) -/
theorem constraint_project_idempotent (Cs : ConstraintSet) (x : List ℝ)
    (hv : Cs.valid x)
    (hs : ∀ c r, Cs = ConstraintSet.sphere2 c r →
      (1:ℝ)/10^12 < r ∧ (c = none → (1:ℝ)/10^12 < norm2 x ∨ ∀ xi ∈ x, xi = 0)) :
    Cs.project (Cs.project x) = Cs.project x := by
  match Cs with
  | .noConstraints => rfl
  | .zero => exact zeroProject_idem x
  | .rectangle lo hi =>
    obtain ⟨_, hlo, hhi⟩ := hv
    exact rectangleProject_idem lo hi x hlo hhi
  | .ball2 c r =>
    obtain ⟨hr, hc⟩ := hv
    exact ball2Project_idem c r x hr hc
  | .ballInf c r =>
    obtain ⟨hr, hc⟩ := hv
    exact ballInfProject_idem c r x hr.le hc
  | .ball1 c r =>
    obtain ⟨hr, hc⟩ := hv
    exact ball1Project_idem c r x hr hc
  | .sphere2 c r =>
    obtain ⟨hr0, hx, hc⟩ := hv
    obtain ⟨hr, hn⟩ := hs c r rfl
    exact sphere2Project_idem c r x hr hx hc hn
  | .simplex a =>
    obtain ⟨ha, hx⟩ := hv
    exact simplexProject_idem a ha x hx
  | .soc a =>
    obtain ⟨ha, _⟩ := hv
    exact socProject_idem a x ha
  | .hyperplane c b =>
    obtain ⟨hlen, hcz⟩ := hv
    exact hyperplaneProject_idem c b x hlen hcz

/-- Witness for `constraint_project_idempotent` at a concrete rectangle. -/
theorem constraint_project_idempotent_witness :
    ConstraintSet.valid (ConstraintSet.rectangle (some [0, 0]) (some [1, 1])) [5, -3] ∧
    ConstraintSet.project (ConstraintSet.rectangle (some [0, 0]) (some [1, 1]))
        (ConstraintSet.project (ConstraintSet.rectangle (some [0, 0]) (some [1, 1])) [5, -3])
      = ConstraintSet.project (ConstraintSet.rectangle (some [0, 0]) (some [1, 1])) [5, -3] :=
  ⟨⟨Or.inl rfl, by intro l hl; cases hl; rfl, by intro h hh; cases hh; rfl⟩,
   constraint_project_idempotent _ [5, -3]
     ⟨Or.inl rfl, by intro l hl; cases hl; rfl, by intro h hh; cases hh; rfl⟩
     (fun c r h => ConstraintSet.noConfusion h)⟩

/-- Counterexample to C7 as stated: for `Sphere2` with no center and the
radius equal to the snap threshold `r = 10⁻¹²` (a valid set: the only
constructor requirement is `r > 0`), the point `x = [2·10⁻¹², 0]` projects
onto `[10⁻¹², 0]`, which the snap branch then moves to `[2·10⁻¹², 0]`:
`project (project x) ≠ project x`. -/
theorem constraint_sphere2_not_idempotent :
    ConstraintSet.valid (ConstraintSet.sphere2 none ((1:ℝ)/10^12)) [2/10^12, 0] ∧
    ConstraintSet.project (ConstraintSet.sphere2 none ((1:ℝ)/10^12))
        (ConstraintSet.project (ConstraintSet.sphere2 none ((1:ℝ)/10^12)) [2/10^12, 0])
      ≠ ConstraintSet.project (ConstraintSet.sphere2 none ((1:ℝ)/10^12)) [2/10^12, 0] := by
  have hN1 : norm2 ([2/10^12, 0] : List ℝ) = 2/10^12 := by
    unfold norm2
    rw [show norm2_squared ([2/10^12, 0] : List ℝ) = ((2:ℝ)/10^12)^2 by
      simp [norm2_squared]; norm_num]
    exact Real.sqrt_sq (by norm_num)
  have hN2 : norm2 ([1/10^12, 0] : List ℝ) = 1/10^12 := by
    unfold norm2
    rw [show norm2_squared ([1/10^12, 0] : List ℝ) = ((1:ℝ)/10^12)^2 by
      simp [norm2_squared]; norm_num]
    exact Real.sqrt_sq (by norm_num)
  have h1 : ConstraintSet.project (ConstraintSet.sphere2 none ((1:ℝ)/10^12)) [2/10^12, 0]
      = [1/10^12, 0] := by
    show sphere2Project none ((1:ℝ)/10^12) [2/10^12, 0] = [1/10^12, 0]
    simp only [sphere2Project]
    rw [hN1, if_neg (by norm_num)]
    norm_num
  have h2 : ConstraintSet.project (ConstraintSet.sphere2 none ((1:ℝ)/10^12)) [1/10^12, 0]
      = [2/10^12, 0] := by
    show sphere2Project none ((1:ℝ)/10^12) [1/10^12, 0] = [2/10^12, 0]
    simp only [sphere2Project]
    rw [hN2, if_pos (by norm_num)]
    norm_num
  refine ⟨⟨by norm_num, by simp, by simp⟩, ?_⟩
  rw [h1, h2]
  intro hcontra
  have := List.head_eq_of_cons_eq hcontra
  norm_num at this

/-- C8 (amended): when the input is within `ε = 10⁻¹²` of the center, the
behavior of `Sphere2::project` depends on whether a center was supplied.
With an explicit center `c`, the input is snapped to `c` and then `r` is
added to the first coordinate, as the claim states.  **Without** a center
the source does not snap: it only adds `r` to `x[0]`, leaving every other
coordinate (possibly nonzero) unchanged. -/
theorem sphere2_project_snap_spec :
    (∀ (c0 : ℝ) (ct : List ℝ) (r : ℝ) (x : List ℝ),
      x.length = (c0 :: ct).length →
      Real.sqrt (norm2_squared_diff x (c0 :: ct)) ≤ (1:ℝ)/10^12 →
      sphere2Project (some (c0 :: ct)) r x = (c0 + r) :: ct) ∧
    (∀ (x0 : ℝ) (xt : List ℝ) (r : ℝ),
      norm2 (x0 :: xt) ≤ (1:ℝ)/10^12 →
      sphere2Project none r (x0 :: xt) = (x0 + r) :: xt) := by
  constructor
  · intro c0 ct r x _ h
    simp only [sphere2Project]
    rw [if_pos h]
  · intro x0 xt r h
    simp only [sphere2Project]
    rw [if_pos h]

/-- Witness for `sphere2_project_snap_spec`: a centered snap at
`c = [1, 2]`, `x = c`, `r = 3` (result `[4, 2]`) and a centerless snap at
`x = [0]`, `r = 1` (result `[1]`). -/
theorem sphere2_project_snap_spec_witness :
    (([(1:ℝ), 2] : List ℝ).length = ([(1:ℝ), 2] : List ℝ).length ∧
     Real.sqrt (norm2_squared_diff [(1:ℝ), 2] [1, 2]) ≤ (1:ℝ)/10^12 ∧
     sphere2Project (some [(1:ℝ), 2]) 3 [1, 2] = [1 + 3, 2]) ∧
    (norm2 [(0:ℝ)] ≤ (1:ℝ)/10^12 ∧
     sphere2Project none 1 [(0:ℝ)] = [0 + 1]) := by
  have hd : Real.sqrt (norm2_squared_diff [(1:ℝ), 2] [1, 2]) ≤ (1:ℝ)/10^12 := by
    rw [norm2_squared_diff_self, Real.sqrt_zero]
    norm_num
  have hz : norm2 [(0:ℝ)] ≤ (1:ℝ)/10^12 := by
    unfold norm2
    rw [show norm2_squared ([(0:ℝ)] : List ℝ) = 0 by simp [norm2_squared],
      Real.sqrt_zero]
    norm_num
  exact ⟨⟨rfl, hd, sphere2_project_snap_spec.1 1 [2] 3 [1, 2] rfl hd⟩,
    ⟨hz, sphere2_project_snap_spec.2 0 [] 1 hz⟩⟩

/-- Counterexample to C8 as stated: with no center (center = origin) and
`x = [0, 10⁻¹³]` within the snap threshold, the source returns
`[r, 10⁻¹³]` — the second coordinate is *not* snapped to the center's
(0), contradicting "the output equals c in every coordinate except the
first". -/
theorem sphere2_centerless_no_snap :
    sphere2Project none 1 [0, 1/10^13] = [1, 1/10^13] ∧
    sphere2Project none 1 [0, 1/10^13] ≠ [1, 0] := by
  have hN : norm2 ([0, 1/10^13] : List ℝ) = 1/10^13 := by
    unfold norm2
    rw [show norm2_squared ([0, 1/10^13] : List ℝ) = ((1:ℝ)/10^13)^2 by
      simp [norm2_squared]; norm_num]
    exact Real.sqrt_sq (by norm_num)
  have h1 : sphere2Project none 1 [0, 1/10^13] = [1, 1/10^13] := by
    simp only [sphere2Project]
    rw [hN, if_pos (by norm_num)]
    norm_num
  refine ⟨h1, ?_⟩
  rw [h1]
  intro hcontra
  have := List.tail_eq_of_cons_eq hcontra
  have := List.head_eq_of_cons_eq this
  norm_num at this

end OptEn

